import Mathlib

/-!
Verification of the MDP / TD-learning algorithm engine of the YatRL2025
repository (Homework1/source/algorithm.py, Homework2/source/algorithm.py,
Homework2/source/cliffwalk.py) against its natural-language specification.

The Python code is shallowly embedded: dictionaries become functions updated
pointwise (`upd`) or association lists; Python floats become rationals (the
algorithms only add, multiply and compare, so the algebraic structure of the
update rules is preserved exactly); `defaultdict` Q-tables become a `QTab`
record holding the list of materialized keys together with a total value
function that is zero outside the written entries, mirroring lazy
zero-initialization; the pseudo-random draws of epsilon-greedy selection are
inputs (each trajectory step records the chosen action and whether the draw
explored); unbounded `while` loops take an explicit fuel argument and return
`Option`.
-/

namespace YatRL

/-- Pointwise update of a function, modelling `d[x] = y` on a Python dict. -/
def upd {α β : Type} [DecidableEq α] (f : α → β) (x : α) (y : β) : α → β :=
  fun z => if z = x then y else f z

theorem upd_same {α β : Type} [DecidableEq α] (f : α → β) (x : α) (y : β) :
    upd f x y x = y := by simp [upd]

theorem upd_ne {α β : Type} [DecidableEq α] (f : α → β) (x : α) (y : β)
    (z : α) (h : z ≠ x) : upd f x y z = f z := by simp [upd, h]

/-- First-match association-list lookup, modelling `dict.get` /
membership-test on a Python dict represented as a key-value list. -/
def alookup {α β : Type} [DecidableEq α] (x : α) : List (α × β) → Option β
  | [] => none
  | p :: rest => if p.1 = x then some p.2 else alookup x rest

/-- Python's `max(iterable)` over a running best, specialised to key-value
pairs compared by value: the current best is replaced only on a strictly
larger value, so the FIRST maximal element (in iteration order) wins.  This
is exactly `best = x if key(x) > key(best) else best` inside CPython's
`max(d, key=d.get)`. -/
def pyArgmax {α : Type} : (α × ℚ) → List (α × ℚ) → α × ℚ
  | best, [] => best
  | best, p :: rest => pyArgmax (if best.2 < p.2 then p else best) rest

/-- Maximum of a nonempty list of rationals presented as head and tail,
the reference reading of "max over actions" in the specification. -/
def listMax (x : ℚ) (xs : List ℚ) : ℚ :=
  xs.foldl max x

theorem if_lt_eq_max (x y : ℚ) : (if x < y then y else x) = max x y := by
  rcases le_or_lt y x with h | h
  · simp [not_lt.mpr h, max_eq_left h]
  · simp [h, max_eq_right (le_of_lt h)]

theorem pyArgmax_snd {α : Type} (b : α × ℚ) (l : List (α × ℚ)) :
    (pyArgmax b l).2 = listMax b.2 (l.map Prod.snd) := by
  induction l generalizing b with
  | nil => simp [pyArgmax, listMax]
  | cons p rest ih =>
      simp only [pyArgmax, listMax, List.map_cons, List.foldl_cons]
      rw [ih]
      rcases le_or_lt p.2 b.2 with h | h
      · simp [not_lt.mpr h, listMax, max_eq_left h]
      · simp [h, listMax, max_eq_right (le_of_lt h)]

theorem pyArgmax_mem {α : Type} (b : α × ℚ) (l : List (α × ℚ)) :
    pyArgmax b l = b ∨ pyArgmax b l ∈ l := by
  induction l generalizing b with
  | nil => left; rfl
  | cons p rest ih =>
      simp only [pyArgmax]
      rcases ih (if b.2 < p.2 then p else b) with h | h
      · rw [h]
        by_cases hc : b.2 < p.2
        · right; simp [hc]
        · left; simp [hc]
      · right; exact List.mem_cons_of_mem _ h

/-- On a list of pairs of the form `(a, f a)`, the argmax's stored value is
`f` of the argmax's key. -/
theorem pyArgmax_respects {α : Type} (f : α → ℚ) (a0 : α) (keys : List α) :
    (pyArgmax (a0, f a0) (keys.map fun a => (a, f a))).2
      = f (pyArgmax (a0, f a0) (keys.map fun a => (a, f a))).1 := by
  rcases pyArgmax_mem (a0, f a0) (keys.map fun a => (a, f a)) with h | h
  · rw [h]
  · rcases List.mem_map.mp h with ⟨a, _, ha⟩
    rw [← ha]

theorem alookup_map_self {α β : Type} [DecidableEq α] (f : α → β) (a : α)
    (keys : List α) (h : a ∈ keys) :
    alookup a (keys.map fun b => (b, f b)) = some (f a) := by
  induction keys with
  | nil => cases h
  | cons k rest ih =>
      rcases List.mem_cons.mp h with rfl | hmem
      · simp [alookup]
      · by_cases hk : k = a
        · subst hk; simp [alookup]
        · simp only [List.map_cons, alookup, hk, if_false]
          exact ih hmem

/-! ## Dynamic-programming solvers (Homework1/source/algorithm.py)

The environment contract: a finite list of states, a fixed ordered action
list, one goal state, and a deterministic transition function returning
`(next_state, reward, terminal)`. -/

structure Env (St Act : Type) where
  states : List St
  actionKeys : List Act
  goalPos : St
  step : St → Act → St × ℚ × Bool

/-- One Q-value `reward + gamma * v[next_s]` as computed from
`next_s, reward, _ = env.step(s, action)` in the Python source. -/
def qVal {St Act : Type} (env : Env St Act) (γ : ℚ) (v : St → ℚ)
    (s : St) (a : Act) : ℚ :=
  (env.step s a).2.1 + γ * v (env.step s a).1

/-- The `action_values` dict of `value_iteration` (and of the improvement
phases), built by inserting `env.action_keys` in order. -/
def actionValues {St Act : Type} (env : Env St Act) (γ : ℚ) (v : St → ℚ)
    (s : St) : List (Act × ℚ) :=
  env.actionKeys.map fun a => (a, qVal env γ v s a)

/-- Body of the per-state loop of `value_iteration` (lines 44-63): skip the
goal, compute `action_values` from the sweep-start snapshot `vOld`, take
`best_action = max(action_values, key=action_values.get)`, write the policy
and `v[s] = action_values[best_action]`, and track `delta`.  The accumulator
is `(v, policy, delta)`; an empty action list would make Python's `max`
raise, modelled as leaving the state untouched. -/
def viVisit {St Act : Type} [DecidableEq St] [DecidableEq Act]
    (env : Env St Act) (γ : ℚ) (vOld : St → ℚ)
    (acc : (St → ℚ) × (St → Option Act) × ℚ) (s : St) :
    (St → ℚ) × (St → Option Act) × ℚ :=
  if s = env.goalPos then acc
  else
    match actionValues env γ vOld s with
    | [] => acc
    | p :: rest =>
        let best := (pyArgmax p rest).1
        let newV := (alookup best (p :: rest)).getD 0
        (upd acc.1 s newV, upd acc.2.1 s (some best),
          max acc.2.2 |vOld s - newV|)

/-- One full sweep of `value_iteration`'s `while True` body: `v_old_iter`
is the copy of `v` taken at the start of the sweep and every state is
visited in order. -/
def viSweep {St Act : Type} [DecidableEq St] [DecidableEq Act]
    (env : Env St Act) (γ : ℚ) (v : St → ℚ) (p : St → Option Act) :
    (St → ℚ) × (St → Option Act) × ℚ :=
  env.states.foldl (viVisit env γ v) (v, p, 0)

/-- `value_iteration` (lines 20-73): iterate sweeps, appending a snapshot to
the history after each, until `delta < theta`; fuel bounds the unbounded
`while True`. -/
def value_iteration {St Act : Type} [DecidableEq St] [DecidableEq Act]
    (env : Env St Act) (γ θ : ℚ) :
    ℕ → (St → ℚ) → (St → Option Act) → List (St → ℚ) →
    Option ((St → ℚ) × (St → Option Act) × List (St → ℚ))
  | 0, _, _, _ => none
  | fuel + 1, v, p, hist =>
      let r := viSweep env γ v p
      if r.2.2 < θ then some (r.1, r.2.1, hist ++ [r.1])
      else value_iteration env γ θ fuel r.1 r.2.1 (hist ++ [r.1])

/-- The value that a sweep writes at a non-goal state: the stored
`action_values` entry of the first argmax key. -/
def viNewVal {St Act : Type} [DecidableEq Act] (env : Env St Act) (γ : ℚ)
    (vOld : St → ℚ) (s : St) : ℚ :=
  match actionValues env γ vOld s with
  | [] => 0
  | p :: rest => (alookup (pyArgmax p rest).1 (p :: rest)).getD 0

theorem viVisit_val_ne {St Act : Type} [DecidableEq St] [DecidableEq Act]
    (env : Env St Act) (γ : ℚ) (vOld : St → ℚ)
    (acc : (St → ℚ) × (St → Option Act) × ℚ) (x s : St) (h : s ≠ x) :
    (viVisit env γ vOld acc x).1 s = acc.1 s := by
  unfold viVisit
  by_cases hg : x = env.goalPos
  · simp [hg]
  · simp only [hg, if_false]
    cases actionValues env γ vOld x with
    | nil => rfl
    | cons p rest => simp [upd_ne _ _ _ _ h]

theorem viFold_val_not_mem {St Act : Type} [DecidableEq St] [DecidableEq Act]
    (env : Env St Act) (γ : ℚ) (vOld : St → ℚ) (l : List St)
    (acc : (St → ℚ) × (St → Option Act) × ℚ) (s : St) (h : s ∉ l) :
    (l.foldl (viVisit env γ vOld) acc).1 s = acc.1 s := by
  induction l generalizing acc with
  | nil => rfl
  | cons x rest ih =>
      simp only [List.foldl_cons]
      rw [ih _ (fun hs => h (List.mem_cons_of_mem _ hs))]
      exact viVisit_val_ne env γ vOld acc x s (fun hs => h (hs ▸ List.mem_cons_self x rest))

theorem viVisit_val_self {St Act : Type} [DecidableEq St] [DecidableEq Act]
    (env : Env St Act) (γ : ℚ) (vOld : St → ℚ)
    (acc : (St → ℚ) × (St → Option Act) × ℚ) (s : St)
    (hg : s ≠ env.goalPos) (hA : env.actionKeys ≠ []) :
    (viVisit env γ vOld acc s).1 s = viNewVal env γ vOld s := by
  unfold viVisit viNewVal
  simp only [hg, if_false]
  cases hav : actionValues env γ vOld s with
  | nil =>
      exfalso
      exact hA (List.map_eq_nil_iff.mp hav)
  | cons p rest => simp [upd_same]

theorem viFold_val_mem {St Act : Type} [DecidableEq St] [DecidableEq Act]
    (env : Env St Act) (γ : ℚ) (vOld : St → ℚ) (l : List St)
    (acc : (St → ℚ) × (St → Option Act) × ℚ) (s : St) (h : s ∈ l)
    (hg : s ≠ env.goalPos) (hA : env.actionKeys ≠ []) :
    (l.foldl (viVisit env γ vOld) acc).1 s = viNewVal env γ vOld s := by
  induction l generalizing acc with
  | nil => cases h
  | cons x rest ih =>
      simp only [List.foldl_cons]
      by_cases hr : s ∈ rest
      · exact ih _ hr
      · have hx : s = x := by
          rcases List.mem_cons.mp h with h1 | h2
          · exact h1
          · exact absurd h2 hr
        subst hx
        rw [viFold_val_not_mem env γ vOld rest _ s hr]
        exact viVisit_val_self env γ vOld acc s hg hA

/-- The written value is the maximum of the Q-values over the action list. -/
theorem viNewVal_eq_max {St Act : Type} [DecidableEq St] [DecidableEq Act]
    (env : Env St Act) (γ : ℚ) (vOld : St → ℚ) (s : St)
    (a0 : Act) (rest : List Act) (hA : env.actionKeys = a0 :: rest) :
    viNewVal env γ vOld s
      = listMax (qVal env γ vOld s a0) (rest.map (qVal env γ vOld s)) := by
  unfold viNewVal actionValues
  rw [hA]
  simp only [List.map_cons]
  set f : Act → ℚ := qVal env γ vOld s with hf
  have hmem : (pyArgmax (a0, f a0) (rest.map fun a => (a, f a))).1 ∈ a0 :: rest := by
    rcases pyArgmax_mem (a0, f a0) (rest.map fun a => (a, f a)) with h | h
    · rw [h]; exact List.mem_cons_self _ _
    · rcases List.mem_map.mp h with ⟨a, ha, hpa⟩
      rw [← hpa]
      exact List.mem_cons_of_mem _ ha
  have hlk : alookup (pyArgmax (a0, f a0) (rest.map fun a => (a, f a))).1
      ((a0, f a0) :: rest.map fun a => (a, f a))
      = some (f (pyArgmax (a0, f a0) (rest.map fun a => (a, f a))).1) := by
    have := alookup_map_self f
      (pyArgmax (a0, f a0) (rest.map fun a => (a, f a))).1 (a0 :: rest) hmem
    simpa using this
  rw [hlk]
  simp only [Option.getD_some]
  rw [← pyArgmax_respects f a0 rest]
  rw [pyArgmax_snd]
  simp only [listMax, List.map_map]
  congr 1

/-- C1.  In `value_iteration`, every Bellman-optimal update performed during
a sweep reads successor values exclusively from the snapshot of the value
table taken at the start of that sweep: for every non-goal state `s` of the
state list, the value the sweep writes at `s` is
`max over a of reward(s,a) + gamma * v[next(s,a)]` where `v` is the table as
it stood before any state of the sweep was updated (the `v_old_iter` copy).
`value_iteration` performs exactly these sweeps. -/
theorem C1_value_iteration_synchronous_sweep {St Act : Type}
    [DecidableEq St] [DecidableEq Act]
    (env : Env St Act) (γ : ℚ) (v : St → ℚ) (p : St → Option Act) (s : St)
    (a0 : Act) (rest : List Act) (hA : env.actionKeys = a0 :: rest)
    (hs : s ∈ env.states) (hg : s ≠ env.goalPos) :
    (viSweep env γ v p).1 s
      = listMax (qVal env γ v s a0) (rest.map (qVal env γ v s)) := by
  unfold viSweep
  rw [viFold_val_mem env γ v env.states (v, p, 0) s hs hg (by rw [hA]; simp)]
  exact viNewVal_eq_max env γ v s a0 rest hA

/-- Concrete two-state, two-action environment used by witnesses. -/
def E2 : Env ℕ ℕ where
  states := [0, 1]
  actionKeys := [0, 1]
  goalPos := 1
  step := fun s a =>
    if s = 0 then (if a = 0 then (1, -1, true) else (0, -2, false))
    else (1, 0, true)

theorem C1_witness :
    E2.actionKeys = 0 :: [1] ∧ (0 : ℕ) ∈ E2.states ∧ (0 : ℕ) ≠ E2.goalPos ∧
      (viSweep E2 (9/10) (fun _ => 0) (fun _ => none)).1 0
        = listMax (qVal E2 (9/10) (fun _ => 0) 0 0)
            ([1].map (qVal E2 (9/10) (fun _ => 0) 0)) :=
  ⟨rfl, by decide, by decide,
    C1_value_iteration_synchronous_sweep E2 (9/10) (fun _ => 0) (fun _ => none)
      0 0 [1] rfl (by decide) (by decide)⟩

/-! ### Policy iteration and truncated policy iteration -/

/-- Body of the per-state loop of the truncated evaluation phase
(lines 167-171): skip the goal, read the policy's action, and write
`v[s] = reward + gamma * v_old[next_s]` where `v_old` is the copy taken at
the start of the sweep.  The goal's policy entry is the empty string `''`,
modelled as `none` (never read for non-goal states in actual runs). -/
def tpiVisit {St Act : Type} [DecidableEq St] (env : Env St Act) (γ : ℚ)
    (π : St → Option Act) (vOld : St → ℚ) (acc : St → ℚ) (s : St) : St → ℚ :=
  if s = env.goalPos then acc
  else
    match π s with
    | none => acc
    | some a => upd acc s ((env.step s a).2.1 + γ * vOld (env.step s a).1)

/-- One synchronous evaluation sweep of `truncated_policy_iteration`. -/
def tpiSweep {St Act : Type} [DecidableEq St] (env : Env St Act) (γ : ℚ)
    (π : St → Option Act) (v : St → ℚ) : St → ℚ :=
  env.states.foldl (tpiVisit env γ π v) v

/-- The truncated evaluation phase: `for _ in range(j_truncate)` sweeps,
with no convergence test (lines 165-171). -/
def tpiEval {St Act : Type} [DecidableEq St] (env : Env St Act) (γ : ℚ)
    (π : St → Option Act) : ℕ → (St → ℚ) → St → ℚ
  | 0, v => v
  | j + 1, v => tpiEval env γ π j (tpiSweep env γ π v)

/-- Body of the policy-improvement loop shared by `policy_iteration`
(lines 118-133) and `truncated_policy_iteration` (lines 179-190): skip the
goal, recompute the greedy action from the current value table, overwrite
the policy, and clear `policy_stable` when the action changed. -/
def improveVisit {St Act : Type} [DecidableEq St] [DecidableEq Act]
    (env : Env St Act) (γ : ℚ) (v : St → ℚ)
    (acc : (St → Option Act) × Bool) (s : St) : (St → Option Act) × Bool :=
  if s = env.goalPos then acc
  else
    match actionValues env γ v s with
    | [] => acc
    | p :: rest =>
        let best := (pyArgmax p rest).1
        (upd acc.1 s (some best), acc.2 && decide (acc.1 s = some best))

/-- One policy-improvement pass, returning the new policy and the
`policy_stable` flag. -/
def piImprove {St Act : Type} [DecidableEq St] [DecidableEq Act]
    (env : Env St Act) (γ : ℚ) (v : St → ℚ) (π : St → Option Act) :
    (St → Option Act) × Bool :=
  env.states.foldl (improveVisit env γ v) (π, true)

/-- `truncated_policy_iteration` (lines 143-197): alternate a fixed number
`j` of synchronous evaluation sweeps with policy improvement until the
policy is stable; fuel bounds the outer `while True`. -/
def truncated_policy_iteration {St Act : Type} [DecidableEq St] [DecidableEq Act]
    (env : Env St Act) (γ : ℚ) (j : ℕ) :
    ℕ → (St → ℚ) → (St → Option Act) → List (St → ℚ) →
    Option ((St → ℚ) × (St → Option Act) × List (St → ℚ))
  | 0, _, _, _ => none
  | fuel + 1, v, π, hist =>
      let v1 := tpiEval env γ π j v
      let r := piImprove env γ v1 π
      if r.2 then some (v1, r.1, hist ++ [v1])
      else truncated_policy_iteration env γ j fuel v1 r.1 (hist ++ [v1])

/-- Body of the per-state loop of `policy_iteration`'s evaluation phase
(lines 100-107): skip the goal, read the policy's action, and update
`v[s] = reward + gamma * v[next_s]` IN PLACE — the successor value is read
from the live, partially updated table `acc.1`, not from a snapshot — while
tracking `delta`. -/
def piEvalVisit {St Act : Type} [DecidableEq St] (env : Env St Act) (γ : ℚ)
    (π : St → Option Act) (acc : (St → ℚ) × ℚ) (s : St) : (St → ℚ) × ℚ :=
  if s = env.goalPos then acc
  else
    match π s with
    | none => acc
    | some a =>
        let vOld := acc.1 s
        let newV := (env.step s a).2.1 + γ * acc.1 (env.step s a).1
        (upd acc.1 s newV, max acc.2 |vOld - newV|)

/-- One in-place evaluation sweep of `policy_iteration`, returning the
updated table and the sweep's `delta`. -/
def piEvalSweep {St Act : Type} [DecidableEq St] (env : Env St Act) (γ : ℚ)
    (π : St → Option Act) (v : St → ℚ) : (St → ℚ) × ℚ :=
  env.states.foldl (piEvalVisit env γ π) (v, 0)

/-- The evaluation loop of `policy_iteration` (lines 98-110): sweep until
`delta < theta`; fuel bounds the unbounded `while True`. -/
def piEvalLoop {St Act : Type} [DecidableEq St] (env : Env St Act) (γ θ : ℚ)
    (π : St → Option Act) : ℕ → (St → ℚ) → Option (St → ℚ)
  | 0, _ => none
  | fuel + 1, v =>
      let r := piEvalSweep env γ π v
      if r.2 < θ then some r.1 else piEvalLoop env γ θ π fuel r.1

/-- The outer loop of `policy_iteration` (lines 93-137): evaluate the
current policy to convergence, record history, improve, and stop exactly
when the improvement pass changed no action. -/
def policy_iteration_loop {St Act : Type} [DecidableEq St] [DecidableEq Act]
    (env : Env St Act) (γ θ : ℚ) (evalFuel : ℕ) :
    ℕ → (St → ℚ) → (St → Option Act) → List (St → ℚ) →
    Option ((St → ℚ) × (St → Option Act) × List (St → ℚ))
  | 0, _, _, _ => none
  | fuel + 1, v, π, hist =>
      match piEvalLoop env γ θ π evalFuel v with
      | none => none
      | some v1 =>
          let r := piImprove env γ v1 π
          if r.2 then some (v1, r.1, hist ++ [v1])
          else policy_iteration_loop env γ θ evalFuel fuel v1 r.1 (hist ++ [v1])

/-- `policy_iteration` proper: zero-initialized value table, caller-supplied
initial policy (the source draws it from the global random source), history
seeded with the initial table. -/
def policy_iteration {St Act : Type} [DecidableEq St] [DecidableEq Act]
    (env : Env St Act) (γ θ : ℚ) (evalFuel fuel : ℕ) (π0 : St → Option Act) :
    Option ((St → ℚ) × (St → Option Act) × List (St → ℚ)) :=
  policy_iteration_loop env γ θ evalFuel fuel (fun _ => 0) π0 [fun _ => 0]

theorem tpiVisit_ne {St Act : Type} [DecidableEq St] (env : Env St Act)
    (γ : ℚ) (π : St → Option Act) (vOld : St → ℚ) (acc : St → ℚ) (x s : St)
    (h : s ≠ x) : tpiVisit env γ π vOld acc x s = acc s := by
  unfold tpiVisit
  by_cases hg : x = env.goalPos
  · simp [hg]
  · simp only [hg, if_false]
    cases π x with
    | none => rfl
    | some a => simp [upd_ne _ _ _ _ h]

theorem tpiFold_not_mem {St Act : Type} [DecidableEq St] (env : Env St Act)
    (γ : ℚ) (π : St → Option Act) (vOld : St → ℚ) (l : List St)
    (acc : St → ℚ) (s : St) (h : s ∉ l) :
    l.foldl (tpiVisit env γ π vOld) acc s = acc s := by
  induction l generalizing acc with
  | nil => rfl
  | cons x rest ih =>
      simp only [List.foldl_cons]
      rw [ih _ (fun hs => h (List.mem_cons_of_mem _ hs))]
      exact tpiVisit_ne env γ π vOld acc x s
        (fun hs => h (hs ▸ List.mem_cons_self x rest))

theorem tpiFold_mem {St Act : Type} [DecidableEq St] (env : Env St Act)
    (γ : ℚ) (π : St → Option Act) (vOld : St → ℚ) (l : List St)
    (acc : St → ℚ) (s : St) (a : Act) (h : s ∈ l) (hg : s ≠ env.goalPos)
    (hπ : π s = some a) :
    l.foldl (tpiVisit env γ π vOld) acc s
      = (env.step s a).2.1 + γ * vOld (env.step s a).1 := by
  induction l generalizing acc with
  | nil => cases h
  | cons x rest ih =>
      simp only [List.foldl_cons]
      by_cases hr : s ∈ rest
      · exact ih _ hr
      · have hx : s = x := by
          rcases List.mem_cons.mp h with h1 | h2
          · exact h1
          · exact absurd h2 hr
        subst hx
        rw [tpiFold_not_mem env γ π vOld rest _ s hr]
        unfold tpiVisit
        simp [hg, hπ, upd_same]

/-- C5.  In `truncated_policy_iteration` the evaluation phase runs exactly
`j` sweeps — `tpiEval` is literally the `j`-fold iterate of the sweep, with
no convergence test — and each sweep is synchronous: the value written at a
non-goal state reads successor values from the table `v` as it stood at the
start of that sweep (the `v_old` copy), not from values updated within the
sweep. -/
theorem C5_truncated_evaluation_synchronous {St Act : Type}
    [DecidableEq St] [DecidableEq Act] (env : Env St Act) (γ : ℚ)
    (π : St → Option Act) (v : St → ℚ) (s : St) (a : Act) (j : ℕ)
    (hs : s ∈ env.states) (hg : s ≠ env.goalPos) (hπ : π s = some a) :
    tpiSweep env γ π v s = (env.step s a).2.1 + γ * v (env.step s a).1 ∧
      tpiEval env γ π j v = (tpiSweep env γ π)^[j] v := by
  constructor
  · exact tpiFold_mem env γ π v env.states v s a hs hg hπ
  · clear hs hg hπ
    induction j generalizing v with
    | zero => rfl
    | succ k ih =>
        show tpiEval env γ π k (tpiSweep env γ π v) = _
        rw [ih (tpiSweep env γ π v), Function.iterate_succ_apply]

/-- Initial deterministic policy used by witnesses on `E2`. -/
def piPol0 : ℕ → Option ℕ := fun s => if s = 0 then some 0 else none

theorem C5_witness :
    (0 : ℕ) ∈ E2.states ∧ (0 : ℕ) ≠ E2.goalPos ∧ piPol0 0 = some 0 ∧
      (tpiSweep E2 (9/10) piPol0 (fun _ => 0) 0
          = (E2.step 0 0).2.1 + (9/10) * (fun _ => (0:ℚ)) (E2.step 0 0).1 ∧
        tpiEval E2 (9/10) piPol0 2 (fun _ => 0)
          = (tpiSweep E2 (9/10) piPol0)^[2] (fun _ => 0)) :=
  ⟨by decide, by decide, by decide,
    C5_truncated_evaluation_synchronous E2 (9/10) piPol0 (fun _ => 0) 0 0 2
      (by decide) (by decide) (by decide)⟩

theorem piEvalVisit_ne {St Act : Type} [DecidableEq St] (env : Env St Act)
    (γ : ℚ) (π : St → Option Act) (acc : (St → ℚ) × ℚ) (x s : St)
    (h : s ≠ x) : (piEvalVisit env γ π acc x).1 s = acc.1 s := by
  unfold piEvalVisit
  by_cases hg : x = env.goalPos
  · simp [hg]
  · simp only [hg, if_false]
    cases π x with
    | none => rfl
    | some a => simp [upd_ne _ _ _ _ h]

theorem piEvalFold_not_mem {St Act : Type} [DecidableEq St] (env : Env St Act)
    (γ : ℚ) (π : St → Option Act) (l : List St) (acc : (St → ℚ) × ℚ) (s : St)
    (h : s ∉ l) : (l.foldl (piEvalVisit env γ π) acc).1 s = acc.1 s := by
  induction l generalizing acc with
  | nil => rfl
  | cons x rest ih =>
      simp only [List.foldl_cons]
      rw [ih _ (fun hs => h (List.mem_cons_of_mem _ hs))]
      exact piEvalVisit_ne env γ π acc x s
        (fun hs => h (hs ▸ List.mem_cons_self x rest))

theorem improveVisit_pol_ne {St Act : Type} [DecidableEq St] [DecidableEq Act]
    (env : Env St Act) (γ : ℚ) (v : St → ℚ) (acc : (St → Option Act) × Bool)
    (x s : St) (h : s ≠ x) : (improveVisit env γ v acc x).1 s = acc.1 s := by
  unfold improveVisit
  by_cases hg : x = env.goalPos
  · simp [hg]
  · simp only [hg, if_false]
    cases actionValues env γ v x with
    | nil => rfl
    | cons p rest => simp [upd_ne _ _ _ _ h]

theorem improveFold_pol_not_mem {St Act : Type} [DecidableEq St] [DecidableEq Act]
    (env : Env St Act) (γ : ℚ) (v : St → ℚ) (l : List St)
    (acc : (St → Option Act) × Bool) (s : St) (h : s ∉ l) :
    (l.foldl (improveVisit env γ v) acc).1 s = acc.1 s := by
  induction l generalizing acc with
  | nil => rfl
  | cons x rest ih =>
      simp only [List.foldl_cons]
      rw [ih _ (fun hs => h (List.mem_cons_of_mem _ hs))]
      exact improveVisit_pol_ne env γ v acc x s
        (fun hs => h (hs ▸ List.mem_cons_self x rest))

/-- Value of a function at the first argmax of the list built from it. -/
theorem pyArgmax_key_max {Act : Type} (f : Act → ℚ) (a0 : Act)
    (rest : List Act) :
    f (pyArgmax (a0, f a0) (rest.map fun a => (a, f a))).1
      = listMax (f a0) (rest.map f) := by
  rw [← pyArgmax_respects f a0 rest, pyArgmax_snd]
  simp only [listMax, List.map_map]
  congr 1

theorem improveFold_pol_mem {St Act : Type} [DecidableEq St] [DecidableEq Act]
    (env : Env St Act) (γ : ℚ) (v : St → ℚ) (l : List St)
    (acc : (St → Option Act) × Bool) (s : St) (a0 : Act) (rest : List Act)
    (h : s ∈ l) (hg : s ≠ env.goalPos) (hA : env.actionKeys = a0 :: rest) :
    (l.foldl (improveVisit env γ v) acc).1 s
      = some (pyArgmax (a0, qVal env γ v s a0)
          (rest.map fun a => (a, qVal env γ v s a))).1 := by
  induction l generalizing acc with
  | nil => cases h
  | cons x xs ih =>
      simp only [List.foldl_cons]
      by_cases hr : s ∈ xs
      · exact ih _ hr
      · have hx : s = x := by
          rcases List.mem_cons.mp h with h1 | h2
          · exact h1
          · exact absurd h2 hr
        subst hx
        rw [improveFold_pol_not_mem env γ v xs _ s hr]
        unfold improveVisit
        simp only [hg, if_false]
        unfold actionValues
        rw [hA]
        simp [upd_same]

theorem piImprove_greedy {St Act : Type} [DecidableEq St] [DecidableEq Act]
    (env : Env St Act) (γ : ℚ) (v : St → ℚ) (π : St → Option Act) (s : St)
    (a0 : Act) (rest : List Act) (hs : s ∈ env.states) (hg : s ≠ env.goalPos)
    (hA : env.actionKeys = a0 :: rest) :
    ∃ b, (piImprove env γ v π).1 s = some b ∧
      qVal env γ v s b = listMax (qVal env γ v s a0) (rest.map (qVal env γ v s)) := by
  refine ⟨(pyArgmax (a0, qVal env γ v s a0)
      (rest.map fun a => (a, qVal env γ v s a))).1, ?_, ?_⟩
  · exact improveFold_pol_mem env γ v env.states (π, true) s a0 rest hs hg hA
  · exact pyArgmax_key_max (qVal env γ v s) a0 rest

/-- C6.  In `policy_iteration`: (A) each evaluation sweep updates the table
in place — the value written at a non-goal state `s` reads the successor
value from the table as already updated by the states visited before `s` in
the same sweep, not from a snapshot; (B) the evaluation loop returns the
output of a sweep whose `delta` is below `theta`, (B') and returns as soon
as a sweep's `delta` drops below `theta`; (C) whenever the outer loop
returns, the final policy-improvement pass left `policy_stable` true
(changed no state's action), (C') and a stable improvement pass makes the
outer loop return immediately with its results; (D) the returned policy is
greedy with respect to the returned value function at every non-goal
state. -/
theorem C6_policy_iteration_structure {St Act : Type}
    [DecidableEq St] [DecidableEq Act] (env : Env St Act) (γ θ : ℚ) :
    (∀ (π : St → Option Act) (v : St → ℚ) (pre suf : List St) (s : St) (a : Act),
        env.states = pre ++ s :: suf → s ∉ suf → s ≠ env.goalPos → π s = some a →
        (piEvalSweep env γ π v).1 s
          = (env.step s a).2.1
            + γ * (pre.foldl (piEvalVisit env γ π) (v, 0)).1 (env.step s a).1) ∧
    (∀ (π : St → Option Act) (fuel : ℕ) (v v1 : St → ℚ),
        piEvalLoop env γ θ π fuel v = some v1 →
        ∃ v0, (piEvalSweep env γ π v0).1 = v1 ∧ (piEvalSweep env γ π v0).2 < θ) ∧
    (∀ (π : St → Option Act) (fuel : ℕ) (v : St → ℚ),
        (piEvalSweep env γ π v).2 < θ →
        piEvalLoop env γ θ π (fuel + 1) v = some (piEvalSweep env γ π v).1) ∧
    (∀ (ef fuel : ℕ) (v : St → ℚ) (π : St → Option Act) (hist : List (St → ℚ))
        (v1 : St → ℚ) (π1 : St → Option Act) (h1 : List (St → ℚ)),
        policy_iteration_loop env γ θ ef fuel v π hist = some (v1, π1, h1) →
        ∃ πp, piImprove env γ v1 πp = (π1, true)) ∧
    (∀ (ef fuel : ℕ) (v : St → ℚ) (π : St → Option Act) (hist : List (St → ℚ)),
        (piEvalSweep env γ π v).2 < θ →
        (piImprove env γ (piEvalSweep env γ π v).1 π).2 = true →
        policy_iteration_loop env γ θ (ef + 1) (fuel + 1) v π hist
          = some ((piEvalSweep env γ π v).1,
              (piImprove env γ (piEvalSweep env γ π v).1 π).1,
              hist ++ [(piEvalSweep env γ π v).1])) ∧
    (∀ (ef fuel : ℕ) (v : St → ℚ) (π : St → Option Act) (hist : List (St → ℚ))
        (v1 : St → ℚ) (π1 : St → Option Act) (h1 : List (St → ℚ)) (s : St)
        (a0 : Act) (rest : List Act),
        policy_iteration_loop env γ θ ef fuel v π hist = some (v1, π1, h1) →
        s ∈ env.states → s ≠ env.goalPos → env.actionKeys = a0 :: rest →
        ∃ b, π1 s = some b ∧
          qVal env γ v1 s b
            = listMax (qVal env γ v1 s a0) (rest.map (qVal env γ v1 s))) := by
  refine ⟨?hA, ?hB, ?hB2, ?hC, ?hC2, ?hD⟩
  case hA =>
    intro π v pre suf s a hst hsuf hg hπ
    unfold piEvalSweep
    rw [hst, List.foldl_append, List.foldl_cons]
    rw [piEvalFold_not_mem env γ π suf _ s hsuf]
    unfold piEvalVisit
    simp [hg, hπ, upd_same]
  case hB =>
    intro π fuel
    induction fuel with
    | zero => intro v v1 h; cases h
    | succ k ih =>
        intro v v1 h
        unfold piEvalLoop at h
        by_cases hδ : (piEvalSweep env γ π v).2 < θ
        · simp only [hδ, if_true] at h
          exact ⟨v, Option.some_inj.mp h, hδ⟩
        · simp only [hδ, if_false] at h
          exact ih _ _ h
  case hB2 =>
    intro π fuel v hδ
    unfold piEvalLoop
    simp [hδ]
  case hC =>
    intro ef fuel
    induction fuel with
    | zero => intro v π hist v1 π1 h1 h; cases h
    | succ k ih =>
        intro v π hist v1 π1 h1 h
        unfold policy_iteration_loop at h
        cases heval : piEvalLoop env γ θ π ef v with
        | none => rw [heval] at h; cases h
        | some v2 =>
            rw [heval] at h
            by_cases hst : (piImprove env γ v2 π).2 = true
            · simp only [hst, if_true, Option.some.injEq, Prod.mk.injEq] at h
              obtain ⟨rfl, hπ, -⟩ := h
              exact ⟨π, by rw [← hπ, ← hst]⟩
            · simp only [hst, if_false] at h
              exact ih _ _ _ _ _ _ h
  case hC2 =>
    intro ef fuel v π hist hδ hst
    unfold policy_iteration_loop
    have hloop : piEvalLoop env γ θ π (ef + 1) v
        = some (piEvalSweep env γ π v).1 := by
      unfold piEvalLoop
      simp [hδ]
    rw [hloop]
    simp [hst]
  case hD =>
    intro ef fuel
    induction fuel with
    | zero => intro v π hist v1 π1 h1 s a0 rest h; cases h
    | succ k ih =>
        intro v π hist v1 π1 h1 s a0 rest h hs hg hA
        unfold policy_iteration_loop at h
        cases heval : piEvalLoop env γ θ π ef v with
        | none => rw [heval] at h; cases h
        | some v2 =>
            rw [heval] at h
            by_cases hst : (piImprove env γ v2 π).2 = true
            · simp only [hst, if_true, Option.some.injEq, Prod.mk.injEq] at h
              obtain ⟨rfl, hπ, -⟩ := h
              rw [← hπ]
              exact piImprove_greedy env γ v2 π s a0 rest hs hg hA
            · simp only [hst, if_false] at h
              exact ih _ _ _ _ _ _ _ _ _ h hs hg hA

theorem C6_witness :
    (piEvalSweep E2 0 piPol0 (fun _ => 0)).2 < 2 ∧
      (piImprove E2 0 (piEvalSweep E2 0 piPol0 (fun _ => 0)).1 piPol0).2
        = true ∧
      policy_iteration_loop E2 0 2 (0 + 1) (0 + 1) (fun _ => 0) piPol0 []
        = some ((piEvalSweep E2 0 piPol0 (fun _ => 0)).1,
            (piImprove E2 0
              (piEvalSweep E2 0 piPol0 (fun _ => 0)).1 piPol0).1,
            [] ++ [(piEvalSweep E2 0 piPol0 (fun _ => 0)).1]) := by
  have hδ : (piEvalSweep E2 0 piPol0 (fun _ => 0)).2 < 2 := by
    norm_num [piEvalSweep, piEvalVisit, E2, piPol0, upd]
  have hst : (piImprove E2 0 (piEvalSweep E2 0 piPol0 (fun _ => 0)).1 piPol0).2
      = true := by
    norm_num [piImprove, improveVisit, actionValues, qVal, pyArgmax,
      piEvalSweep, piEvalVisit, E2, piPol0, upd]
  exact ⟨hδ, hst, (C6_policy_iteration_structure E2 0 2).2.2.2.2.1 0 0
    (fun _ => 0) piPol0 [] hδ hst⟩

/-! ## Temporal-difference learners (Homework2/source/algorithm.py)

The learners interact with the environment online and draw from the global
random source inside `choose_action_e_greedy`.  Both are abstracted into the
trajectory: each step records what `env.step` returned together with the
action the epsilon-greedy draw chose and whether that draw explored (the
explore branch returns a random action WITHOUT reading `q_table[state]`,
the exploit branch reads the row; only the row-materialization side effect
differs, the chosen action is data). -/

/-- One trajectory step of a TD learner.  For `q_learning` and
`expected_sarsa`, `act` is the action chosen at the current state at the top
of the loop body; for `sarsa` and `n_step_sarsa`, `act` is the next action
chosen at `s2` after stepping.  `s2`, `r`, `done` are the `env.step`
outcome. -/
structure Tr (St Act : Type) where
  act : Act
  exp : Bool
  s2 : St
  r : ℚ
  done : Bool
deriving DecidableEq

/-- A `defaultdict` Q-table: the states whose rows have been materialized,
in first-touch order, plus the total value function.  Unmaterialized rows
have never been written, so `val` is zero there — lazily created rows are
zero-initialized for every action. -/
structure QTab (St Act : Type) where
  keys : List St
  val : St → Act → ℚ

/-- The Q-table at the start of training: no rows, all values zero. -/
def initQ {St Act : Type} : QTab St Act := ⟨[], fun _ _ => 0⟩

/-- Row materialization: any `q_table[s]` access creates the zero row on
first touch. -/
def qtouch {St Act : Type} [DecidableEq St] (q : QTab St Act) (s : St) :
    QTab St Act :=
  if s ∈ q.keys then q else ⟨q.keys ++ [s], q.val⟩

/-- `q_table[s][a] = x`; the subscript access materializes the row. -/
def qwrite {St Act : Type} [DecidableEq St] [DecidableEq Act]
    (q : QTab St Act) (s : St) (a : Act) (x : ℚ) : QTab St Act :=
  let q1 := qtouch q s
  ⟨q1.keys, fun z => if z = s then upd (q1.val s) a x else q1.val z⟩

/-- `max(q_table[s].values())` over the row's fixed action ordering. -/
def rowMax {Act : Type} (f : Act → ℚ) : List Act → ℚ
  | [] => 0
  | a :: rest => rest.foldl (fun m b => max m (f b)) (f a)

/-- `max(q_table[s], key=q_table[s].get)`: the first argmax in the row's
key order, which is the `action_keys` creation order. -/
def pyRowArgmax {Act : Type} (f : Act → ℚ) : List Act → Option Act
  | [] => none
  | a :: rest => some (pyArgmax (a, f a) (rest.map fun b => (b, f b))).1

/-- `policy = {s: max(q_table[s], key=q_table[s].get) for s in q_table}`:
one entry per materialized row, in materialization order. -/
def derivePolicy {St Act : Type} (A : List Act) (q : QTab St Act) :
    List (St × Act) :=
  match A with
  | [] => []
  | a0 :: rest =>
      q.keys.map fun s =>
        (s, (pyArgmax (a0, q.val s a0) (rest.map fun b => (b, q.val s b))).1)

/-- The `while not done` body of one `q_learning` episode (lines 64-82):
choose an action at the current state (reading the row only on exploit),
step, read `old_value = q_table[state][action]` and
`next_max = max(q_table[next_state].values())`, apply the off-policy update,
and advance.  Returns the Q-table, the states passed to
`choose_action_e_greedy`, and the total reward. -/
def qLearningLoop {St Act : Type} [DecidableEq St] [DecidableEq Act]
    (A : List Act) (γ α : ℚ) : QTab St Act → St → List (Tr St Act) →
    QTab St Act × List St × ℚ
  | q, _, [] => (q, [], 0)
  | q, s, t :: rest =>
      let q1 := if t.exp then q else qtouch q s
      let q2 := qtouch q1 s
      let old := q2.val s t.act
      let q3 := qtouch q2 t.s2
      let nmax := rowMax (q3.val t.s2) A
      let q4 := qwrite q3 s t.act (old + α * (t.r + γ * nmax - old))
      if t.done then (q4, [s], t.r)
      else
        let res := qLearningLoop A γ α q4 t.s2 rest
        (res.1, s :: res.2.1, t.r + res.2.2)

/-- The expectation target of `expected_sarsa` (lines 164-175): greedy
action of the next row by first-argmax, probability
`1 - eps + eps/|A|` for it and `eps/|A|` for the others, accumulated over
`action_keys` in order. -/
def expTarget {Act : Type} [DecidableEq Act] (A : List Act) (ε : ℚ)
    (f : Act → ℚ) : ℚ :=
  match pyRowArgmax f A with
  | none => 0
  | some best =>
      A.foldl (fun acc a =>
        acc + (if a = best then 1 - ε + ε / A.length else ε / A.length) * f a) 0

/-- The `while not done` body of one `expected_sarsa` episode
(lines 156-181): like `q_learning` but with the expectation target. -/
def expectedSarsaLoop {St Act : Type} [DecidableEq St] [DecidableEq Act]
    (A : List Act) (γ α ε : ℚ) : QTab St Act → St → List (Tr St Act) →
    QTab St Act × List St × ℚ
  | q, _, [] => (q, [], 0)
  | q, s, t :: rest =>
      let q1 := if t.exp then q else qtouch q s
      let q2 := qtouch q1 s
      let old := q2.val s t.act
      let q3 := qtouch q2 t.s2
      let tgt := t.r + γ * expTarget A ε (q3.val t.s2)
      let q4 := qwrite q3 s t.act (old + α * (tgt - old))
      if t.done then (q4, [s], t.r)
      else
        let res := expectedSarsaLoop A γ α ε q4 t.s2 rest
        (res.1, s :: res.2.1, t.r + res.2.2)

/-- The `while not done` body of one `sarsa` episode (lines 111-131): step
with the carried `(state, action)`, choose the NEXT action at `next_state`
— unconditionally, even on the terminal transition (line 117) — read
`old_value` and `next_value`, apply the on-policy update, advance both
state and action.  Returns the Q-table, the update log
`(state, action, td_target, new_value)`, the states passed to
`choose_action_e_greedy`, and the total reward. -/
def sarsaLoop {St Act : Type} [DecidableEq St] [DecidableEq Act]
    (γ α : ℚ) : QTab St Act → St → Act → List (Tr St Act) →
    QTab St Act × List (St × Act × ℚ × ℚ) × List St × ℚ
  | q, _, _, [] => (q, [], [], 0)
  | q, s, a, t :: rest =>
      let q1 := if t.exp then q else qtouch q t.s2
      let q2 := qtouch q1 s
      let old := q2.val s a
      let q3 := qtouch q2 t.s2
      let nv := q3.val t.s2 t.act
      let tgt := t.r + γ * nv
      let q4 := qwrite q3 s a (old + α * (tgt - old))
      if t.done then (q4, [(s, a, tgt, old + α * (tgt - old))], [t.s2], t.r)
      else
        let res := sarsaLoop γ α q4 t.s2 t.act rest
        (res.1, (s, a, tgt, old + α * (tgt - old)) :: res.2.1,
          t.s2 :: res.2.2.1, t.r + res.2.2.2)

/-- Per-episode input of `sarsa` and `n_step_sarsa`: the initial
epsilon-greedy draw at the start state (`e0`, `a0`, line 109 resp. 212) and
the trajectory. -/
structure EpIn (St Act : Type) where
  e0 : Bool
  a0 : Act
  traj : List (Tr St Act)

/-- One full `sarsa` episode: initial action choice at the start state,
then the loop.  The selection log includes the start state. -/
def sarsaEpisode {St Act : Type} [DecidableEq St] [DecidableEq Act]
    (γ α : ℚ) (q : QTab St Act) (s0 : St) (ep : EpIn St Act) :
    QTab St Act × List (St × Act × ℚ × ℚ) × List St × ℚ :=
  let qi := if ep.e0 then q else qtouch q s0
  let res := sarsaLoop γ α qi s0 ep.a0 ep.traj
  (res.1, res.2.1, s0 :: res.2.2.1, res.2.2.2)

/-- `G = sum of gamma^i * r_i` over a reward list, the value accumulated by
the `for i in range(...)` loops of `n_step_sarsa` (lines 236-240 and
269-272). -/
def discSum (γ : ℚ) : List ℚ → ℚ
  | [] => 0
  | r :: rest => r + γ * discSum γ rest

/-- Result of the main `while` loop of an `n_step_sarsa` episode. -/
structure NsRes (St Act : Type) where
  q : QTab St Act
  buf : List (St × Act × ℚ)
  upds : List (St × Act × ℚ × ℚ)
  appends : List (St × Act)
  sel : List St
  cnt : ℕ
  fin : Bool
  rew : ℚ

/-- Output of one executed iteration body of the `n_step_sarsa` main loop. -/
structure StepOut (St Act : Type) where
  q : QTab St Act
  buf : List (St × Act × ℚ)
  upds : List (St × Act × ℚ × ℚ)
  sel : List St

/-- One iteration body of the `n_step_sarsa` main loop (lines 217-255):
append `(state, action, reward)` to the trajectory buffer; choose the next
action at `next_state` unless terminal (the exploit draw materializes that
row); once the buffer holds at least `n` entries, update the OLDEST buffered
pair with the `n`-step return `G` over the first `n` buffered rewards —
adding the bootstrap `gamma^n * q_table[next_state][next_action]` only when
not terminal — then evict it.  The `[]` match arm is unreachable because the
buffer was just appended to. -/
def nstepStep {St Act : Type} [DecidableEq St] [DecidableEq Act]
    (n : ℕ) (γ α : ℚ) (q : QTab St Act) (s : St) (a : Act) (t : Tr St Act)
    (buf : List (St × Act × ℚ)) : StepOut St Act :=
  let buf1 := buf ++ [(s, a, t.r)]
  let q1 := if t.done then q else (if t.exp then q else qtouch q t.s2)
  let selH : List St := if t.done then [] else [t.s2]
  if n ≤ buf1.length then
    match buf1 with
    | [] => ⟨q1, buf1, [], selH⟩
    | e :: btail =>
        let g0 := discSum γ (((e :: btail).map fun x => x.2.2).take n)
        let q2 := if t.done then q1 else qtouch q1 t.s2
        let g := if t.done then g0 else g0 + γ ^ n * q2.val t.s2 t.act
        let q3 := qtouch q2 e.1
        let old := q3.val e.1 e.2.1
        let q4 := qwrite q3 e.1 e.2.1 (old + α * (g - old))
        ⟨q4, btail, [(e.1, e.2.1, g, old + α * (g - old))], selH⟩
  else ⟨q1, buf1, [], selH⟩

/-- The main loop of one `n_step_sarsa` episode (lines 215-260):
`while not done and step_counter < max_steps_per_episode`, run the
iteration body, then either stop (terminal observed) or advance to
`(next_state, next_action)`.  `cnt` is the step counter; `fin` is the final
`done` flag; `appends` logs the buffered `(state, action)` pairs in
order. -/
def nstepLoop {St Act : Type} [DecidableEq St] [DecidableEq Act]
    (n : ℕ) (γ α : ℚ) (cap : ℕ) : QTab St Act → St → Act → ℕ →
    List (St × Act × ℚ) → List (Tr St Act) → NsRes St Act
  | q, _, _, cnt, buf, [] => ⟨q, buf, [], [], [], cnt, false, 0⟩
  | q, s, a, cnt, buf, t :: rest =>
      if cnt < cap then
        let o := nstepStep n γ α q s a t buf
        if t.done then ⟨o.q, o.buf, o.upds, [(s, a)], o.sel, cnt + 1, true, t.r⟩
        else
          let res := nstepLoop n γ α cap o.q t.s2 t.act (cnt + 1) o.buf rest
          ⟨res.q, res.buf, o.upds ++ res.upds, (s, a) :: res.appends,
            o.sel ++ res.sel, res.cnt, res.fin, t.r + res.rew⟩
      else ⟨q, buf, [], [], [], cnt, false, 0⟩

/-- The drain loop of `n_step_sarsa` (lines 264-280): while the buffer is
nonempty, compute the return of the oldest entry from ALL remaining buffered
rewards with no bootstrap term, apply the update, and evict it.  Returns
the Q-table, the update log, and the leftover buffer. -/
def drain {St Act : Type} [DecidableEq St] [DecidableEq Act] (γ α : ℚ) :
    QTab St Act → List (St × Act × ℚ) →
    QTab St Act × List (St × Act × ℚ × ℚ) × List (St × Act × ℚ)
  | q, [] => (q, [], [])
  | q, e :: rest =>
      let g := discSum γ ((e :: rest).map fun x => x.2.2)
      let q1 := qtouch q e.1
      let old := q1.val e.1 e.2.1
      let q2 := qwrite q1 e.1 e.2.1 (old + α * (g - old))
      let res := drain γ α q2 rest
      (res.1, (e.1, e.2.1, g, old + α * (g - old)) :: res.2.1, res.2.2)

/-- Result of one full `n_step_sarsa` episode: main loop then drain. -/
structure EpRes (St Act : Type) where
  q : QTab St Act
  mainUpds : List (St × Act × ℚ × ℚ)
  drainUpds : List (St × Act × ℚ × ℚ)
  appends : List (St × Act)
  sel : List St
  cnt : ℕ
  fin : Bool
  rew : ℚ
  leftBuf : List (St × Act × ℚ)

/-- One full `n_step_sarsa` episode (lines 204-282): initial action choice
at the start state, main loop from an empty buffer and step counter zero,
then the drain phase on whatever remains in the buffer. -/
def nstepEpisode {St Act : Type} [DecidableEq St] [DecidableEq Act]
    (n : ℕ) (γ α : ℚ) (cap : ℕ) (q : QTab St Act) (s0 : St)
    (ep : EpIn St Act) : EpRes St Act :=
  let qi := if ep.e0 then q else qtouch q s0
  let res := nstepLoop n γ α cap qi s0 ep.a0 0 [] ep.traj
  let d := drain γ α res.q res.buf
  ⟨d.1, res.upds, d.2.1, res.appends, s0 :: res.sel, res.cnt, res.fin,
    res.rew, d.2.2⟩

/-- Result of a full training run: Q-table, derived policy, per-episode
reward history. -/
structure RunRes (St Act : Type) where
  q : QTab St Act
  policy : List (St × Act)
  hist : List ℚ

/-- `q_learning` (lines 43-88): run all episodes from the zero-initialized
lazy Q-table, then derive the final policy over the materialized states. -/
def q_learning {St Act : Type} [DecidableEq St] [DecidableEq Act]
    (A : List Act) (γ α : ℚ) (s0 : St) (eps : List (List (Tr St Act))) :
    RunRes St Act :=
  let p := eps.foldl (fun acc tr =>
      let r := qLearningLoop A γ α acc.1 s0 tr
      (r.1, acc.2 ++ [r.2.2])) (initQ, [])
  ⟨p.1, derivePolicy A p.1, p.2⟩

/-- `sarsa` (lines 91-136). -/
def sarsa {St Act : Type} [DecidableEq St] [DecidableEq Act]
    (A : List Act) (γ α : ℚ) (s0 : St) (eps : List (EpIn St Act)) :
    RunRes St Act :=
  let p := eps.foldl (fun acc ep =>
      let r := sarsaEpisode γ α acc.1 s0 ep
      (r.1, acc.2 ++ [r.2.2.2])) (initQ, [])
  ⟨p.1, derivePolicy A p.1, p.2⟩

/-- `expected_sarsa` (lines 139-186). -/
def expected_sarsa {St Act : Type} [DecidableEq St] [DecidableEq Act]
    (A : List Act) (γ α ε : ℚ) (s0 : St) (eps : List (List (Tr St Act))) :
    RunRes St Act :=
  let p := eps.foldl (fun acc tr =>
      let r := expectedSarsaLoop A γ α ε acc.1 s0 tr
      (r.1, acc.2 ++ [r.2.2])) (initQ, [])
  ⟨p.1, derivePolicy A p.1, p.2⟩

/-- `n_step_sarsa` (lines 189-285). -/
def n_step_sarsa {St Act : Type} [DecidableEq St] [DecidableEq Act]
    (A : List Act) (n : ℕ) (γ α : ℚ) (cap : ℕ) (s0 : St)
    (eps : List (EpIn St Act)) : RunRes St Act :=
  let p := eps.foldl (fun acc ep =>
      let r := nstepEpisode n γ α cap acc.1 s0 ep
      (r.q, acc.2 ++ [r.rew])) (initQ, [])
  ⟨p.1, derivePolicy A p.1, p.2⟩

theorem nstepLoop_le_cap {St Act : Type} [DecidableEq St] [DecidableEq Act]
    (n : ℕ) (γ α : ℚ) (cap : ℕ) (traj : List (Tr St Act)) :
    ∀ (q : QTab St Act) (s : St) (a : Act) (cnt : ℕ)
      (buf : List (St × Act × ℚ)), cnt ≤ cap →
    (nstepLoop n γ α cap q s a cnt buf traj).cnt ≤ cap ∧
      (cap ≤ cnt + traj.length →
        (nstepLoop n γ α cap q s a cnt buf traj).fin = true ∨
          (nstepLoop n γ α cap q s a cnt buf traj).cnt = cap) := by
  induction traj with
  | nil =>
      intro q s a cnt buf hle
      simp only [nstepLoop]
      exact ⟨hle, fun hge => Or.inr (by simp at hge; omega)⟩
  | cons t rest ih =>
      intro q s a cnt buf hle
      simp only [nstepLoop]
      by_cases hc : cnt < cap
      · simp only [hc, if_true]
        have hcap : cnt + 1 ≤ cap := hc
        split
        · exact ⟨hcap, fun _ => Or.inl rfl⟩
        · exact ⟨(ih _ _ _ _ _ hcap).1,
            fun hge => (ih _ _ _ _ _ hcap).2 (by simp at hge ⊢; omega)⟩
      · simp only [hc, if_false]
        exact ⟨hle, fun _ => Or.inr (by omega)⟩

/-- C8.  Every episode's inner loop of `n_step_sarsa` terminates after at
most `max_steps_per_episode` environment steps: the final step counter
(which counts executed iterations, one `env.step` each) never exceeds the
cap, and — provided the environment can keep supplying transitions, i.e.
the trajectory is at least `cap` long, which covers layouts where the
terminal state is never reached — the loop stops either because a terminal
transition was observed (`fin = true`) or because the counter reached the
cap. -/
theorem C8_nstep_episode_step_cap {St Act : Type}
    [DecidableEq St] [DecidableEq Act] (n : ℕ) (γ α : ℚ) (cap : ℕ)
    (q : QTab St Act) (s0 : St) (ep : EpIn St Act) :
    (nstepEpisode n γ α cap q s0 ep).cnt ≤ cap ∧
      (cap ≤ ep.traj.length →
        (nstepEpisode n γ α cap q s0 ep).fin = true ∨
          (nstepEpisode n γ α cap q s0 ep).cnt = cap) := by
  have h := nstepLoop_le_cap n γ α cap ep.traj
    (if ep.e0 then q else qtouch q s0) s0 ep.a0 0 [] (Nat.zero_le cap)
  exact ⟨h.1, fun hge => h.2 (by omega)⟩

/-- A concrete never-terminating five-step trajectory: the cap stops the
loop at three steps. -/
def trLoop : Tr ℕ ℕ := ⟨0, true, 0, -1, false⟩

theorem C8_witness :
    (3 : ℕ) ≤ (EpIn.mk true 0 [trLoop, trLoop, trLoop, trLoop, trLoop]).traj.length ∧
      ((nstepEpisode 2 1 1 3 initQ 0
          (EpIn.mk true 0 [trLoop, trLoop, trLoop, trLoop, trLoop])).fin = true ∨
        (nstepEpisode 2 1 1 3 initQ 0
          (EpIn.mk true 0 [trLoop, trLoop, trLoop, trLoop, trLoop])).cnt = 3) :=
  ⟨by decide,
    (C8_nstep_episode_step_cap 2 1 1 3 initQ 0
      (EpIn.mk true 0 [trLoop, trLoop, trLoop, trLoop, trLoop])).2 (by decide)⟩

theorem drain_left_nil {St Act : Type} [DecidableEq St] [DecidableEq Act]
    (γ α : ℚ) (q : QTab St Act) (buf : List (St × Act × ℚ)) :
    (drain γ α q buf).2.2 = [] := by
  induction buf generalizing q with
  | nil => rfl
  | cons e rest ih => simp only [drain]; exact ih _

theorem drain_sa {St Act : Type} [DecidableEq St] [DecidableEq Act]
    (γ α : ℚ) (q : QTab St Act) (buf : List (St × Act × ℚ)) :
    (drain γ α q buf).2.1.map (fun u => (u.1, u.2.1))
      = buf.map fun e => (e.1, e.2.1) := by
  induction buf generalizing q with
  | nil => rfl
  | cons e rest ih =>
      simp only [drain, List.map_cons, List.cons.injEq]
      exact ⟨trivial, ih _⟩

theorem drain_targets {St Act : Type} [DecidableEq St] [DecidableEq Act]
    (γ α : ℚ) (q : QTab St Act) (buf : List (St × Act × ℚ)) :
    (drain γ α q buf).2.1.map (fun u => u.2.2.1)
      = (List.range buf.length).map
          (fun k => discSum γ ((buf.drop k).map fun e => e.2.2)) := by
  induction buf generalizing q with
  | nil => rfl
  | cons e rest ih =>
      simp only [drain, List.map_cons, List.length_cons, List.range_succ_eq_map,
        List.map_map, List.drop_zero]
      rw [ih]
      rfl

theorem nstepStep_sa {St Act : Type} [DecidableEq St] [DecidableEq Act]
    (n : ℕ) (γ α : ℚ) (q : QTab St Act) (s : St) (a : Act) (t : Tr St Act)
    (buf : List (St × Act × ℚ)) :
    (nstepStep n γ α q s a t buf).upds.map (fun u => (u.1, u.2.1))
        ++ (nstepStep n γ α q s a t buf).buf.map (fun e => (e.1, e.2.1))
      = buf.map (fun e => (e.1, e.2.1)) ++ [(s, a)] := by
  simp only [nstepStep]
  split
  · rcases buf with _ | ⟨x, xs⟩
    · simp
    · simp
  · simp

theorem nstepLoop_sa {St Act : Type} [DecidableEq St] [DecidableEq Act]
    (n : ℕ) (γ α : ℚ) (cap : ℕ) (traj : List (Tr St Act)) :
    ∀ (q : QTab St Act) (s : St) (a : Act) (cnt : ℕ)
      (buf : List (St × Act × ℚ)),
    (nstepLoop n γ α cap q s a cnt buf traj).upds.map (fun u => (u.1, u.2.1))
        ++ (nstepLoop n γ α cap q s a cnt buf traj).buf.map (fun e => (e.1, e.2.1))
      = buf.map (fun e => (e.1, e.2.1))
        ++ (nstepLoop n γ α cap q s a cnt buf traj).appends := by
  induction traj with
  | nil =>
      intro q s a cnt buf
      simp [nstepLoop]
  | cons t rest ih =>
      intro q s a cnt buf
      simp only [nstepLoop]
      by_cases hc : cnt < cap
      · simp only [hc, if_true]
        split
        · exact nstepStep_sa n γ α q s a t buf
        · simp only [List.map_append, List.append_assoc]
          rw [ih]
          rw [← List.append_assoc, nstepStep_sa n γ α q s a t buf]
          simp
      · simp only [hc, if_false]
        simp

/-- C3.  In every `n_step_sarsa` episode: the combined update log (main loop
then drain) covers, in oldest-first order, exactly the `(state, action)`
pairs stored in the trajectory buffer during the episode — each buffered
pair receives exactly one update; after the drain loop the leftover buffer
is empty; and the drain phase updates each remaining entry with target
`G = sum of gamma^i * rewards` over only the rewards still in the buffer
from that entry onward, with no bootstrap term. -/
theorem C3_nstep_drain_empties_buffer {St Act : Type}
    [DecidableEq St] [DecidableEq Act] (n : ℕ) (γ α : ℚ) (cap : ℕ)
    (q : QTab St Act) (s0 : St) (ep : EpIn St Act) (q2 : QTab St Act)
    (buf : List (St × Act × ℚ)) :
    ((nstepEpisode n γ α cap q s0 ep).mainUpds
        ++ (nstepEpisode n γ α cap q s0 ep).drainUpds).map (fun u => (u.1, u.2.1))
      = (nstepEpisode n γ α cap q s0 ep).appends ∧
    (nstepEpisode n γ α cap q s0 ep).leftBuf = [] ∧
    (drain γ α q2 buf).2.1.map (fun u => (u.1, u.2.1))
      = buf.map (fun e => (e.1, e.2.1)) ∧
    (drain γ α q2 buf).2.1.map (fun u => u.2.2.1)
      = (List.range buf.length).map
          (fun k => discSum γ ((buf.drop k).map fun e => e.2.2)) := by
  refine ⟨?_, ?_, drain_sa γ α q2 buf, drain_targets γ α q2 buf⟩
  · simp only [nstepEpisode]
    rw [List.map_append, drain_sa]
    have h := nstepLoop_sa n γ α cap ep.traj
      (if ep.e0 then q else qtouch q s0) s0 ep.a0 0 []
    simpa using h
  · simp only [nstepEpisode]
    exact drain_left_nil γ α _ _

theorem qtouch_val {St Act : Type} [DecidableEq St] (q : QTab St Act)
    (s : St) : (qtouch q s).val = q.val := by
  unfold qtouch; split <;> rfl

theorem qtouch_keys_mono {St Act : Type} [DecidableEq St] (q : QTab St Act)
    (s x : St) (h : x ∈ q.keys) : x ∈ (qtouch q s).keys := by
  unfold qtouch; split
  · exact h
  · exact List.mem_append_left _ h

theorem qwrite_val {St Act : Type} [DecidableEq St] [DecidableEq Act]
    (q : QTab St Act) (s : St) (a : Act) (x : ℚ) (z : St) :
    (qwrite q s a x).val z = if z = s then upd (q.val s) a x else q.val z := by
  simp only [qwrite, qtouch_val]

theorem qwrite_val_ne {St Act : Type} [DecidableEq St] [DecidableEq Act]
    (q : QTab St Act) (s : St) (a : Act) (x : ℚ) (z : St) (h : z ≠ s) :
    (qwrite q s a x).val z = q.val z := by
  simp only [qwrite_val, h, if_false]

theorem qtouch_ite_val {St Act : Type} [DecidableEq St] (c : Prop)
    [Decidable c] (q : QTab St Act) (s : St) :
    (if c then q else qtouch q s).val = q.val := by
  split
  · rfl
  · exact qtouch_val q s

theorem nstep1_sarsa_aux {St Act : Type} [DecidableEq St] [DecidableEq Act]
    (γ α : ℚ) (cap : ℕ) (tl : Tr St Act) (hdone : tl.done = true) :
    ∀ (ts : List (Tr St Act)) (qn qs : QTab St Act) (s : St) (a : Act)
      (cnt : ℕ),
    (∀ x y, qn.val x y = qs.val x y) →
    cnt + ts.length < cap →
    (∀ t ∈ ts, t.done = false) →
    qs.val tl.s2 tl.act = 0 →
    tl.s2 ≠ s → (∀ t ∈ ts, tl.s2 ≠ t.s2) →
    (nstepLoop 1 γ α cap qn s a cnt [] (ts ++ [tl])).upds
        = (sarsaLoop γ α qs s a (ts ++ [tl])).2.1 ∧
      (nstepLoop 1 γ α cap qn s a cnt [] (ts ++ [tl])).buf = [] := by
  intro ts
  induction ts with
  | nil =>
      intro qn qs s a cnt hval hcnt _ hz _ _
      have hc : cnt < cap := by simpa using hcnt
      simp only [List.nil_append, nstepLoop, sarsaLoop, nstepStep, hc, if_true,
        hdone, qtouch_val, qtouch_ite_val]
      simp [discSum, hval, hz]
  | cons t ts ih =>
      intro qn qs s a cnt hval hcnt hts hz hne hnes
      have hc : cnt < cap := by simp at hcnt; omega
      have htd : t.done = false := hts t (List.mem_cons_self t ts)
      simp only [List.cons_append, nstepLoop, sarsaLoop, nstepStep, hc, if_true,
        htd, qtouch_val, qtouch_ite_val, List.nil_append, List.length_cons,
        List.length_nil, List.map_cons, List.map_nil, List.take_succ_cons,
        List.take_zero, Bool.false_eq_true, if_false, le_refl, discSum,
        pow_one, mul_zero, add_zero, hval]
      constructor
      · congr 1
        refine (ih _ _ t.s2 t.act (cnt + 1) ?_ ?_ ?_ ?_ ?_ ?_).1
        · intro x y
          simp [qwrite_val, qtouch_val, qtouch_ite_val, upd, hval, ite_apply]
        · simp at hcnt ⊢; omega
        · exact fun u hu => hts u (List.mem_cons_of_mem _ hu)
        · simp [qwrite_val, qtouch_val, qtouch_ite_val, hne, hz, hval]
        · exact hnes t (List.mem_cons_self t ts)
        · exact fun u hu => hnes u (List.mem_cons_of_mem _ hu)
      · refine (ih _
            (qwrite (qtouch (qtouch (if t.exp = true then qn else qtouch qn t.s2)
                t.s2) s) s a
              (qs.val s a + α * (t.r + γ * qs.val t.s2 t.act - qs.val s a)))
            t.s2 t.act (cnt + 1) ?_ ?_ ?_ ?_ ?_ ?_).2
        · exact fun x y => rfl
        · simp at hcnt ⊢; omega
        · exact fun u hu => hts u (List.mem_cons_of_mem _ hu)
        · simp [qwrite_val, qtouch_val, qtouch_ite_val, hne, hz, hval]
        · exact hnes t (List.mem_cons_self t ts)
        · exact fun u hu => hnes u (List.mem_cons_of_mem _ hu)

/-- C2 (amended).  `n_step_sarsa` run with `n_steps = 1` performs, on a
fixed episode trajectory (same transitions and same chosen actions) from the
same starting Q-table, exactly the same sequence of Q-table updates — same
`(state, action)`, same target, same written value — as `sarsa`, PROVIDED
the episode is no longer than `max_steps_per_episode` (a longer trajectory
is cut short by the cap in n-step SARSA only), and the Q-value at the
terminal transition's `(next_state, chosen_action)` is zero with the
terminal state not revisited mid-episode (both always hold in actual runs,
where the terminal row is never written). -/
theorem C2_nstep1_matches_sarsa {St Act : Type}
    [DecidableEq St] [DecidableEq Act] (γ α : ℚ) (cap : ℕ)
    (q : QTab St Act) (s0 : St) (a0 : Act) (e0 : Bool)
    (ts : List (Tr St Act)) (tl : Tr St Act)
    (hlen : ts.length < cap)
    (hts : ∀ t ∈ ts, t.done = false) (hdone : tl.done = true)
    (hz : q.val tl.s2 tl.act = 0)
    (hne : tl.s2 ≠ s0) (hnes : ∀ t ∈ ts, tl.s2 ≠ t.s2) :
    (nstepEpisode 1 γ α cap q s0 ⟨e0, a0, ts ++ [tl]⟩).mainUpds
        ++ (nstepEpisode 1 γ α cap q s0 ⟨e0, a0, ts ++ [tl]⟩).drainUpds
      = (sarsaEpisode γ α q s0 ⟨e0, a0, ts ++ [tl]⟩).2.1 := by
  obtain ⟨h1, h2⟩ := nstep1_sarsa_aux γ α cap tl hdone ts
    (if e0 = true then q else qtouch q s0)
    (if e0 = true then q else qtouch q s0) s0 a0 0
    (fun x y => rfl) (by simpa using hlen) hts
    (by simp [qtouch_ite_val, hz]) hne hnes
  simp only [nstepEpisode, sarsaEpisode]
  rw [h2]
  simp [drain, h1]

/-- A non-terminal transition into state 2 and a terminal transition into
state 1, used for the C2 trajectory. -/
def cx1 : Tr ℕ ℕ := ⟨0, true, 2, -1, false⟩

def cx2 : Tr ℕ ℕ := ⟨0, true, 1, -1, true⟩

/-- C2 counterexample: on the two-step episode trajectory `[cx1, cx2]`
(terminal only at the end), `n_step_sarsa` with `n_steps = 1` and
`max_steps_per_episode = 1` performs one update while `sarsa` performs two,
so the update sequences differ — the claim fails for trajectories longer
than the step cap. -/
theorem C2_counterexample :
    cx1.done = false ∧ cx2.done = true ∧
      ((nstepEpisode 1 1 1 1 (initQ : QTab ℕ ℕ) 0 ⟨true, 0, [cx1, cx2]⟩).mainUpds
          ++ (nstepEpisode 1 1 1 1 (initQ : QTab ℕ ℕ) 0
              ⟨true, 0, [cx1, cx2]⟩).drainUpds).length = 1 ∧
      ((sarsaEpisode 1 1 (initQ : QTab ℕ ℕ) 0 ⟨true, 0, [cx1, cx2]⟩).2.1).length
        = 2 ∧
      (nstepEpisode 1 1 1 1 (initQ : QTab ℕ ℕ) 0 ⟨true, 0, [cx1, cx2]⟩).mainUpds
          ++ (nstepEpisode 1 1 1 1 (initQ : QTab ℕ ℕ) 0
              ⟨true, 0, [cx1, cx2]⟩).drainUpds
        ≠ (sarsaEpisode 1 1 (initQ : QTab ℕ ℕ) 0 ⟨true, 0, [cx1, cx2]⟩).2.1 := by
  have hn : ((nstepEpisode 1 1 1 1 (initQ : QTab ℕ ℕ) 0
        ⟨true, 0, [cx1, cx2]⟩).mainUpds
      ++ (nstepEpisode 1 1 1 1 (initQ : QTab ℕ ℕ) 0
          ⟨true, 0, [cx1, cx2]⟩).drainUpds).length = 1 := by
    simp [nstepEpisode, nstepLoop, nstepStep, drain, cx1, cx2, initQ]
  have hs : ((sarsaEpisode 1 1 (initQ : QTab ℕ ℕ) 0
      ⟨true, 0, [cx1, cx2]⟩).2.1).length = 2 := by
    simp [sarsaEpisode, sarsaLoop, cx1, cx2]
  refine ⟨rfl, rfl, hn, hs, fun h => ?_⟩
  rw [h, hs] at hn
  exact absurd hn (by decide)

theorem C2_witness :
    ([cx1].length < 5) ∧ (∀ t ∈ [cx1], t.done = false) ∧ cx2.done = true ∧
      (initQ : QTab ℕ ℕ).val cx2.s2 cx2.act = 0 ∧ cx2.s2 ≠ 0 ∧
      (∀ t ∈ [cx1], cx2.s2 ≠ t.s2) ∧
      (nstepEpisode 1 1 1 5 (initQ : QTab ℕ ℕ) 0 ⟨true, 0, [cx1] ++ [cx2]⟩).mainUpds
          ++ (nstepEpisode 1 1 1 5 (initQ : QTab ℕ ℕ) 0
              ⟨true, 0, [cx1] ++ [cx2]⟩).drainUpds
        = (sarsaEpisode 1 1 (initQ : QTab ℕ ℕ) 0 ⟨true, 0, [cx1] ++ [cx2]⟩).2.1 :=
  ⟨by decide, by decide, rfl, rfl, by decide, by decide,
    C2_nstep1_matches_sarsa 1 1 5 initQ 0 0 true [cx1] cx2 (by decide)
      (by decide) rfl rfl (by decide) (by decide)⟩

theorem qLearningLoop_sel {St Act : Type} [DecidableEq St] [DecidableEq Act]
    (A : List Act) (γ α : ℚ) (g : St) (traj : List (Tr St Act)) :
    ∀ (q : QTab St Act) (s : St), s ≠ g →
    (∀ t ∈ traj, t.done = false → t.s2 ≠ g) →
    g ∉ (qLearningLoop A γ α q s traj).2.1 := by
  induction traj with
  | nil => intro q s hs _; simp [qLearningLoop]
  | cons t rest ih =>
      intro q s hs htraj
      simp only [qLearningLoop]
      split
      · simpa using fun h => hs h.symm
      · next hd =>
          simp only [List.mem_cons, not_or]
          refine ⟨fun h => hs h.symm, ?_⟩
          exact ih _ t.s2
            (htraj t (List.mem_cons_self t rest) (Bool.not_eq_true _ ▸ hd))
            (fun u hu => htraj u (List.mem_cons_of_mem _ hu))

theorem expectedSarsaLoop_sel {St Act : Type} [DecidableEq St] [DecidableEq Act]
    (A : List Act) (γ α ε : ℚ) (g : St) (traj : List (Tr St Act)) :
    ∀ (q : QTab St Act) (s : St), s ≠ g →
    (∀ t ∈ traj, t.done = false → t.s2 ≠ g) →
    g ∉ (expectedSarsaLoop A γ α ε q s traj).2.1 := by
  induction traj with
  | nil => intro q s hs _; simp [expectedSarsaLoop]
  | cons t rest ih =>
      intro q s hs htraj
      simp only [expectedSarsaLoop]
      split
      · simpa using fun h => hs h.symm
      · next hd =>
          simp only [List.mem_cons, not_or]
          refine ⟨fun h => hs h.symm, ?_⟩
          exact ih _ t.s2
            (htraj t (List.mem_cons_self t rest) (Bool.not_eq_true _ ▸ hd))
            (fun u hu => htraj u (List.mem_cons_of_mem _ hu))

theorem nstepStep_sel {St Act : Type} [DecidableEq St] [DecidableEq Act]
    (n : ℕ) (γ α : ℚ) (q : QTab St Act) (s : St) (a : Act) (t : Tr St Act)
    (buf : List (St × Act × ℚ)) :
    (nstepStep n γ α q s a t buf).sel = if t.done then [] else [t.s2] := by
  simp only [nstepStep]
  split
  · split <;> rfl
  · rfl

theorem nstepLoop_sel {St Act : Type} [DecidableEq St] [DecidableEq Act]
    (n : ℕ) (γ α : ℚ) (cap : ℕ) (g : St) (traj : List (Tr St Act)) :
    ∀ (q : QTab St Act) (s : St) (a : Act) (cnt : ℕ)
      (buf : List (St × Act × ℚ)),
    (∀ t ∈ traj, t.done = false → t.s2 ≠ g) →
    g ∉ (nstepLoop n γ α cap q s a cnt buf traj).sel := by
  induction traj with
  | nil => intro q s a cnt buf _; simp [nstepLoop]
  | cons t rest ih =>
      intro q s a cnt buf htraj
      simp only [nstepLoop]
      by_cases hc : cnt < cap
      · simp only [hc, if_true]
        split
        · next hd =>
            rw [nstepStep_sel]
            simp [hd]
        · next hd =>
            rw [nstepStep_sel]
            have hd2 : t.done = false := Bool.not_eq_true _ ▸ hd
            simp only [hd2, Bool.false_eq_true, if_false, List.singleton_append,
              List.mem_cons, not_or]
            refine ⟨fun h => (htraj t (List.mem_cons_self t rest) hd2) h.symm, ?_⟩
            exact ih _ _ _ _ _ (fun u hu => htraj u (List.mem_cons_of_mem _ hu))
      · simp only [hc, if_false]
        simp

/-- C4 (amended).  For `q_learning`, `expected_sarsa` and `n_step_sarsa`,
the goal state is never passed to `choose_action_e_greedy` during an
episode, because these learners select an action only at a state they are
about to act from (or, for n-step SARSA, guard the next-action selection
with `if not done`) and episodes terminate on reaching the goal.  `sarsa`
is the exception: it invokes `choose_action_e_greedy` with `next_state`
unconditionally, so on the terminal transition it consults the goal state's
row (see the counterexample). -/
theorem C4_goal_not_selected_qlearn_expected_nstep {St Act : Type}
    [DecidableEq St] [DecidableEq Act] (A : List Act) (γ α ε : ℚ)
    (n cap : ℕ) (g : St) :
    (∀ (q : QTab St Act) (s0 : St) (traj : List (Tr St Act)), s0 ≠ g →
      (∀ t ∈ traj, t.done = false → t.s2 ≠ g) →
      g ∉ (qLearningLoop A γ α q s0 traj).2.1) ∧
    (∀ (q : QTab St Act) (s0 : St) (traj : List (Tr St Act)), s0 ≠ g →
      (∀ t ∈ traj, t.done = false → t.s2 ≠ g) →
      g ∉ (expectedSarsaLoop A γ α ε q s0 traj).2.1) ∧
    (∀ (q : QTab St Act) (s0 : St) (ep : EpIn St Act), s0 ≠ g →
      (∀ t ∈ ep.traj, t.done = false → t.s2 ≠ g) →
      g ∉ (nstepEpisode n γ α cap q s0 ep).sel) := by
  refine ⟨fun q s0 traj hs h => qLearningLoop_sel A γ α g traj q s0 hs h,
    fun q s0 traj hs h => expectedSarsaLoop_sel A γ α ε g traj q s0 hs h,
    fun q s0 ep hs h => ?_⟩
  simp only [nstepEpisode, List.mem_cons, not_or]
  exact ⟨fun hg => hs hg.symm, nstepLoop_sel n γ α cap g ep.traj _ s0 ep.a0 0 [] h⟩

/-- C4 counterexample: on an episode whose single transition is terminal
into the goal state 1, `sarsa` still invokes `choose_action_e_greedy` with
the goal as its state argument (line 117 of the source is unguarded), so
the goal appears in its selection log. -/
theorem C4_counterexample :
    cx2.done = true ∧ cx2.s2 = 1 ∧
      1 ∈ (sarsaEpisode 1 1 (initQ : QTab ℕ ℕ) 0 ⟨true, 0, [cx2]⟩).2.2.1 := by
  refine ⟨rfl, rfl, ?_⟩
  simp [sarsaEpisode, sarsaLoop, cx2]

theorem C4_witness :
    (0 : ℕ) ≠ 1 ∧ (∀ t ∈ [cx2], t.done = false → t.s2 ≠ 1) ∧
      1 ∉ (qLearningLoop [0] 1 1 (initQ : QTab ℕ ℕ) 0 [cx2]).2.1 :=
  ⟨by decide, by decide,
    (C4_goal_not_selected_qlearn_expected_nstep [0] 1 1 1 1 1 1).1
      initQ 0 [cx2] (by decide) (by decide)⟩

theorem qLearningLoop_val_g {St Act : Type} [DecidableEq St] [DecidableEq Act]
    (A : List Act) (γ α : ℚ) (g : St) (traj : List (Tr St Act)) :
    ∀ (q : QTab St Act) (s : St) (b : Act), s ≠ g →
    (∀ t ∈ traj, t.done = false → t.s2 ≠ g) →
    (qLearningLoop A γ α q s traj).1.val g b = q.val g b := by
  induction traj with
  | nil => intro q s b _ _; rfl
  | cons t rest ih =>
      intro q s b hs htraj
      have hgs : g ≠ s := fun h => hs h.symm
      simp only [qLearningLoop]
      split
      · simp [qwrite_val, hgs, qtouch_val, qtouch_ite_val]
      · next hd =>
          rw [ih _ t.s2 b
            (htraj t (List.mem_cons_self t rest) (Bool.not_eq_true _ ▸ hd))
            (fun u hu => htraj u (List.mem_cons_of_mem _ hu))]
          simp [qwrite_val, hgs, qtouch_val, qtouch_ite_val]

theorem expectedSarsaLoop_val_g {St Act : Type} [DecidableEq St] [DecidableEq Act]
    (A : List Act) (γ α ε : ℚ) (g : St) (traj : List (Tr St Act)) :
    ∀ (q : QTab St Act) (s : St) (b : Act), s ≠ g →
    (∀ t ∈ traj, t.done = false → t.s2 ≠ g) →
    (expectedSarsaLoop A γ α ε q s traj).1.val g b = q.val g b := by
  induction traj with
  | nil => intro q s b _ _; rfl
  | cons t rest ih =>
      intro q s b hs htraj
      have hgs : g ≠ s := fun h => hs h.symm
      simp only [expectedSarsaLoop]
      split
      · simp [qwrite_val, hgs, qtouch_val, qtouch_ite_val]
      · next hd =>
          rw [ih _ t.s2 b
            (htraj t (List.mem_cons_self t rest) (Bool.not_eq_true _ ▸ hd))
            (fun u hu => htraj u (List.mem_cons_of_mem _ hu))]
          simp [qwrite_val, hgs, qtouch_val, qtouch_ite_val]

theorem sarsaLoop_val_g {St Act : Type} [DecidableEq St] [DecidableEq Act]
    (γ α : ℚ) (g : St) (traj : List (Tr St Act)) :
    ∀ (q : QTab St Act) (s : St) (a b : Act), s ≠ g →
    (∀ t ∈ traj, t.done = false → t.s2 ≠ g) →
    (sarsaLoop γ α q s a traj).1.val g b = q.val g b := by
  induction traj with
  | nil => intro q s a b _ _; rfl
  | cons t rest ih =>
      intro q s a b hs htraj
      have hgs : g ≠ s := fun h => hs h.symm
      simp only [sarsaLoop]
      split
      · simp [qwrite_val, hgs, qtouch_val, qtouch_ite_val]
      · next hd =>
          rw [ih _ t.s2 t.act b
            (htraj t (List.mem_cons_self t rest) (Bool.not_eq_true _ ▸ hd))
            (fun u hu => htraj u (List.mem_cons_of_mem _ hu))]
          simp [qwrite_val, hgs, qtouch_val, qtouch_ite_val]

theorem nstepStep_val_g {St Act : Type} [DecidableEq St] [DecidableEq Act]
    (n : ℕ) (γ α : ℚ) (g : St) (q : QTab St Act) (s : St) (a : Act)
    (t : Tr St Act) (buf : List (St × Act × ℚ))
    (hbuf : ∀ e ∈ buf, e.1 ≠ g) (hs : s ≠ g) :
    (∀ b, (nstepStep n γ α q s a t buf).q.val g b = q.val g b) ∧
      (∀ e ∈ (nstepStep n γ α q s a t buf).buf, e.1 ≠ g) := by
  have hbuf1 : ∀ e ∈ buf ++ [(s, a, t.r)], e.1 ≠ g := by
    intro e he
    rcases List.mem_append.mp he with h | h
    · exact hbuf e h
    · simp only [List.mem_singleton] at h
      rw [h]; exact hs
  have hv1 : (if t.done = true then q
      else if t.exp = true then q else qtouch q t.s2).val = q.val := by
    split
    · rfl
    · rw [qtouch_ite_val]
  simp only [nstepStep]
  split
  · split
    · next heq => exact ⟨fun b => by simp [hv1], heq ▸ hbuf1⟩
    · next e btail heq =>
        have he : e.1 ≠ g := hbuf1 e (heq ▸ List.mem_cons_self e btail)
        have hge : g ≠ e.1 := fun h => he h.symm
        refine ⟨fun b => ?_, fun x hx =>
          hbuf1 x (heq ▸ List.mem_cons_of_mem e hx)⟩
        have hv2 : (if t.done = true then
            (if t.done = true then q else if t.exp = true then q
              else qtouch q t.s2)
          else qtouch (if t.done = true then q else if t.exp = true then q
              else qtouch q t.s2) t.s2).val = q.val := by
          split
          · rfl
          · rw [qtouch_val]
            exact qtouch_ite_val _ _ _
        simp [qwrite_val, hge, qtouch_val, hv2]
  · exact ⟨fun b => by simp [hv1], hbuf1⟩

theorem nstepLoop_val_g {St Act : Type} [DecidableEq St] [DecidableEq Act]
    (n : ℕ) (γ α : ℚ) (cap : ℕ) (g : St) (traj : List (Tr St Act)) :
    ∀ (q : QTab St Act) (s : St) (a : Act) (cnt : ℕ)
      (buf : List (St × Act × ℚ)), s ≠ g →
    (∀ t ∈ traj, t.done = false → t.s2 ≠ g) →
    (∀ e ∈ buf, e.1 ≠ g) →
    (∀ b, (nstepLoop n γ α cap q s a cnt buf traj).q.val g b = q.val g b) ∧
      (∀ e ∈ (nstepLoop n γ α cap q s a cnt buf traj).buf, e.1 ≠ g) := by
  induction traj with
  | nil => intro q s a cnt buf _ _ hbuf; exact ⟨fun _ => rfl, hbuf⟩
  | cons t rest ih =>
      intro q s a cnt buf hs htraj hbuf
      have hstep := nstepStep_val_g n γ α g q s a t buf hbuf hs
      simp only [nstepLoop]
      by_cases hc : cnt < cap
      · simp only [hc, if_true]
        split
        · exact hstep
        · next hd =>
            obtain ⟨h1, h2⟩ := ih (nstepStep n γ α q s a t buf).q t.s2 t.act
              (cnt + 1) (nstepStep n γ α q s a t buf).buf
              (htraj t (List.mem_cons_self t rest) (Bool.not_eq_true _ ▸ hd))
              (fun u hu => htraj u (List.mem_cons_of_mem _ hu)) hstep.2
            exact ⟨fun b => (h1 b).trans (hstep.1 b), h2⟩
      · rw [if_neg hc]
        exact ⟨fun _ => rfl, hbuf⟩

theorem drain_val_g {St Act : Type} [DecidableEq St] [DecidableEq Act]
    (γ α : ℚ) (g : St) (buf : List (St × Act × ℚ)) :
    ∀ (q : QTab St Act) (b : Act), (∀ e ∈ buf, e.1 ≠ g) →
    (drain γ α q buf).1.val g b = q.val g b := by
  induction buf with
  | nil => intro q b _; rfl
  | cons e rest ih =>
      intro q b hbuf
      have hge : g ≠ e.1 := fun h => (hbuf e (List.mem_cons_self e rest)) h.symm
      simp only [drain]
      rw [ih _ b (fun x hx => hbuf x (List.mem_cons_of_mem _ hx))]
      simp [qwrite_val, hge, qtouch_val]

theorem nstepEpisode_val_g {St Act : Type} [DecidableEq St] [DecidableEq Act]
    (n : ℕ) (γ α : ℚ) (cap : ℕ) (g : St) (q : QTab St Act) (s0 : St)
    (ep : EpIn St Act) (b : Act) (hs : s0 ≠ g)
    (htraj : ∀ t ∈ ep.traj, t.done = false → t.s2 ≠ g) :
    (nstepEpisode n γ α cap q s0 ep).q.val g b = q.val g b := by
  simp only [nstepEpisode]
  obtain ⟨h1, h2⟩ := nstepLoop_val_g n γ α cap g ep.traj
    (if ep.e0 = true then q else qtouch q s0) s0 ep.a0 0 [] hs htraj (by simp)
  rw [drain_val_g γ α g _ _ b h2, h1 b]
  simp [qtouch_ite_val]

theorem qLearningFold_val_g {St Act : Type} [DecidableEq St] [DecidableEq Act]
    (A : List Act) (γ α : ℚ) (g s0 : St) (hs : s0 ≠ g) (b : Act) :
    ∀ (eps : List (List (Tr St Act))) (acc : QTab St Act × List ℚ),
    (∀ tr ∈ eps, ∀ t ∈ tr, t.done = false → t.s2 ≠ g) →
    (eps.foldl (fun acc tr =>
        let r := qLearningLoop A γ α acc.1 s0 tr
        (r.1, acc.2 ++ [r.2.2])) acc).1.val g b = acc.1.val g b := by
  intro eps
  induction eps with
  | nil => intro acc _; rfl
  | cons tr rest ih =>
      intro acc h2
      simp only [List.foldl_cons]
      rw [ih _ (fun u hu => h2 u (List.mem_cons_of_mem _ hu))]
      exact qLearningLoop_val_g A γ α g tr acc.1 s0 b hs
        (h2 tr (List.mem_cons_self tr rest))

theorem sarsaFold_val_g {St Act : Type} [DecidableEq St] [DecidableEq Act]
    (γ α : ℚ) (g s0 : St) (hs : s0 ≠ g) (b : Act) :
    ∀ (eps : List (EpIn St Act)) (acc : QTab St Act × List ℚ),
    (∀ ep ∈ eps, ∀ t ∈ ep.traj, t.done = false → t.s2 ≠ g) →
    (eps.foldl (fun acc ep =>
        let r := sarsaEpisode γ α acc.1 s0 ep
        (r.1, acc.2 ++ [r.2.2.2])) acc).1.val g b = acc.1.val g b := by
  intro eps
  induction eps with
  | nil => intro acc _; rfl
  | cons ep rest ih =>
      intro acc h2
      simp only [List.foldl_cons]
      rw [ih _ (fun u hu => h2 u (List.mem_cons_of_mem _ hu))]
      show (sarsaEpisode γ α acc.1 s0 ep).1.val g b = acc.1.val g b
      simp only [sarsaEpisode]
      rw [sarsaLoop_val_g γ α g ep.traj _ s0 ep.a0 b hs
        (h2 ep (List.mem_cons_self ep rest))]
      simp [qtouch_ite_val]

theorem expectedFold_val_g {St Act : Type} [DecidableEq St] [DecidableEq Act]
    (A : List Act) (γ α ε : ℚ) (g s0 : St) (hs : s0 ≠ g) (b : Act) :
    ∀ (eps : List (List (Tr St Act))) (acc : QTab St Act × List ℚ),
    (∀ tr ∈ eps, ∀ t ∈ tr, t.done = false → t.s2 ≠ g) →
    (eps.foldl (fun acc tr =>
        let r := expectedSarsaLoop A γ α ε acc.1 s0 tr
        (r.1, acc.2 ++ [r.2.2])) acc).1.val g b = acc.1.val g b := by
  intro eps
  induction eps with
  | nil => intro acc _; rfl
  | cons tr rest ih =>
      intro acc h2
      simp only [List.foldl_cons]
      rw [ih _ (fun u hu => h2 u (List.mem_cons_of_mem _ hu))]
      exact expectedSarsaLoop_val_g A γ α ε g tr acc.1 s0 b hs
        (h2 tr (List.mem_cons_self tr rest))

theorem nstepFold_val_g {St Act : Type} [DecidableEq St] [DecidableEq Act]
    (n : ℕ) (γ α : ℚ) (cap : ℕ) (g s0 : St) (hs : s0 ≠ g) (b : Act) :
    ∀ (eps : List (EpIn St Act)) (acc : QTab St Act × List ℚ),
    (∀ ep ∈ eps, ∀ t ∈ ep.traj, t.done = false → t.s2 ≠ g) →
    (eps.foldl (fun acc ep =>
        let r := nstepEpisode n γ α cap acc.1 s0 ep
        (r.q, acc.2 ++ [r.rew])) acc).1.val g b = acc.1.val g b := by
  intro eps
  induction eps with
  | nil => intro acc _; rfl
  | cons ep rest ih =>
      intro acc h2
      simp only [List.foldl_cons]
      rw [ih _ (fun u hu => h2 u (List.mem_cons_of_mem _ hu))]
      exact nstepEpisode_val_g n γ α cap g acc.1 s0 ep b hs
        (h2 ep (List.mem_cons_self ep rest))

/-- C9.  For every TD learner, after a full training run from the
zero-initialized lazy Q-table, the goal state's row holds zero for every
action: no update ever writes to it, because the episode loop exits before
the agent's current state becomes the goal, so every written row belongs to
a state a step was taken from (for n-step SARSA this includes all buffered
states, none of which is the goal). -/
theorem C9_goal_row_stays_zero {St Act : Type}
    [DecidableEq St] [DecidableEq Act] (A : List Act) (γ α ε : ℚ)
    (n cap : ℕ) (g s0 : St) (hs : s0 ≠ g) :
    (∀ (eps : List (List (Tr St Act))),
      (∀ tr ∈ eps, ∀ t ∈ tr, t.done = false → t.s2 ≠ g) →
      ∀ b, (q_learning A γ α s0 eps).q.val g b = 0) ∧
    (∀ (eps : List (EpIn St Act)),
      (∀ ep ∈ eps, ∀ t ∈ ep.traj, t.done = false → t.s2 ≠ g) →
      ∀ b, (sarsa A γ α s0 eps).q.val g b = 0) ∧
    (∀ (eps : List (List (Tr St Act))),
      (∀ tr ∈ eps, ∀ t ∈ tr, t.done = false → t.s2 ≠ g) →
      ∀ b, (expected_sarsa A γ α ε s0 eps).q.val g b = 0) ∧
    (∀ (eps : List (EpIn St Act)),
      (∀ ep ∈ eps, ∀ t ∈ ep.traj, t.done = false → t.s2 ≠ g) →
      ∀ b, (n_step_sarsa A n γ α cap s0 eps).q.val g b = 0) := by
  refine ⟨fun eps heps b => ?_, fun eps heps b => ?_, fun eps heps b => ?_,
    fun eps heps b => ?_⟩
  · show (eps.foldl (fun acc tr =>
        let r := qLearningLoop A γ α acc.1 s0 tr
        (r.1, acc.2 ++ [r.2.2])) ((initQ : QTab St Act), [])).1.val g b = 0
    rw [qLearningFold_val_g A γ α g s0 hs b eps _ heps]
    rfl
  · show (eps.foldl (fun acc ep =>
        let r := sarsaEpisode γ α acc.1 s0 ep
        (r.1, acc.2 ++ [r.2.2.2])) ((initQ : QTab St Act), [])).1.val g b = 0
    rw [sarsaFold_val_g γ α g s0 hs b eps _ heps]
    rfl
  · show (eps.foldl (fun acc tr =>
        let r := expectedSarsaLoop A γ α ε acc.1 s0 tr
        (r.1, acc.2 ++ [r.2.2])) ((initQ : QTab St Act), [])).1.val g b = 0
    rw [expectedFold_val_g A γ α ε g s0 hs b eps _ heps]
    rfl
  · show (eps.foldl (fun acc ep =>
        let r := nstepEpisode n γ α cap acc.1 s0 ep
        (r.q, acc.2 ++ [r.rew])) ((initQ : QTab St Act), [])).1.val g b = 0
    rw [nstepFold_val_g n γ α cap g s0 hs b eps _ heps]
    rfl

theorem C9_witness :
    (0 : ℕ) ≠ 1 ∧ (∀ tr ∈ [[cx1, cx2]], ∀ t ∈ tr, t.done = false → t.s2 ≠ 1) ∧
      (q_learning [0] 1 1 0 [[cx1, cx2]]).q.val 1 0 = 0 := by
  have h2 : ∀ tr ∈ [[cx1, cx2]], ∀ t ∈ tr, t.done = false → t.s2 ≠ 1 := by
    decide
  exact ⟨by decide, h2,
    (C9_goal_row_stays_zero [0] 1 1 1 1 1 (1 : ℕ) 0 (by decide)).1
      [[cx1, cx2]] h2 0⟩

theorem alookup_map_not_mem {α β : Type} [DecidableEq α] (f : α → β) (x : α)
    (keys : List α) (h : x ∉ keys) :
    alookup x (keys.map fun b => (b, f b)) = none := by
  induction keys with
  | nil => rfl
  | cons k rest ih =>
      have hk : k ≠ x := fun he => h (he ▸ List.mem_cons_self k rest)
      simp only [List.map_cons, alookup, hk, if_false]
      exact ih (fun hm => h (List.mem_cons_of_mem _ hm))

/-- Python's `max` over a constant-valued key list returns the first key. -/
theorem pyArgmax_const {α : Type} (p : α × ℚ) (l : List (α × ℚ))
    (h : ∀ x ∈ l, x.2 = p.2) : pyArgmax p l = p := by
  induction l with
  | nil => rfl
  | cons x xs ih =>
      simp only [pyArgmax]
      have hx : x.2 = p.2 := h x (List.mem_cons_self x xs)
      rw [if_neg (by rw [hx]; exact lt_irrefl _)]
      exact ih (fun y hy => h y (List.mem_cons_of_mem _ hy))

theorem derivePolicy_fst {St Act : Type} (a0 : Act) (rest : List Act)
    (q : QTab St Act) :
    (derivePolicy (a0 :: rest) q).map Prod.fst = q.keys := by
  simp only [derivePolicy, List.map_map]
  exact List.map_id q.keys

theorem qtouch_keys_self {St Act : Type} [DecidableEq St] (q : QTab St Act)
    (s : St) : s ∈ (qtouch q s).keys := by
  unfold qtouch
  split
  · next h => exact h
  · simp

theorem qtouch_keys_not {St Act : Type} [DecidableEq St] (q : QTab St Act)
    (s x : St) (hx : x ∉ q.keys) (hxs : x ≠ s) : x ∉ (qtouch q s).keys := by
  unfold qtouch
  split
  · exact hx
  · intro hm
    rcases List.mem_append.mp hm with h | h
    · exact hx h
    · simp at h; exact hxs h

theorem qtouch_ite_keys_mono {St Act : Type} [DecidableEq St] (c : Prop)
    [Decidable c] (q : QTab St Act) (s x : St) (h : x ∈ q.keys) :
    x ∈ (if c then q else qtouch q s).keys := by
  split
  · exact h
  · exact qtouch_keys_mono q s x h

theorem qwrite_keys_mono {St Act : Type} [DecidableEq St] [DecidableEq Act]
    (q : QTab St Act) (s : St) (a : Act) (v : ℚ) (x : St) (h : x ∈ q.keys) :
    x ∈ (qwrite q s a v).keys := qtouch_keys_mono q s x h

theorem qLearningLoop_keys_mono {St Act : Type} [DecidableEq St]
    [DecidableEq Act] (A : List Act) (γ α : ℚ) (traj : List (Tr St Act)) :
    ∀ (q : QTab St Act) (s x : St), x ∈ q.keys →
    x ∈ (qLearningLoop A γ α q s traj).1.keys := by
  induction traj with
  | nil => intro q s x h; exact h
  | cons t rest ih =>
      intro q s x h
      simp only [qLearningLoop]
      have h4 : x ∈ (qwrite (qtouch (qtouch (if t.exp = true then q
          else qtouch q s) s) t.s2) s t.act
            ((qtouch (if t.exp = true then q else qtouch q s) s).val s t.act
              + α * (t.r + γ * rowMax ((qtouch (qtouch (if t.exp = true then q
                  else qtouch q s) s) t.s2).val t.s2) A
                - (qtouch (if t.exp = true then q else qtouch q s) s).val s
                    t.act))).keys := by
        apply qwrite_keys_mono
        apply qtouch_keys_mono
        apply qtouch_keys_mono
        exact qtouch_ite_keys_mono _ q s x h
      split
      · exact h4
      · exact ih _ t.s2 x h4

theorem qLearningLoop_goal_in_keys {St Act : Type} [DecidableEq St]
    [DecidableEq Act] (A : List Act) (γ α : ℚ) (ts : List (Tr St Act)) :
    ∀ (q : QTab St Act) (s : St) (rest2 : List (Tr St Act)) (tl : Tr St Act),
    (∀ t ∈ ts, t.done = false) → tl.done = true →
    tl.s2 ∈ (qLearningLoop A γ α q s (ts ++ tl :: rest2)).1.keys := by
  induction ts with
  | nil =>
      intro q s rest2 tl _ htl
      simp only [List.nil_append, qLearningLoop]
      rw [if_pos htl]
      apply qwrite_keys_mono
      exact qtouch_keys_self _ tl.s2
  | cons t ts ih =>
      intro q s rest2 tl hts htl
      have htd : t.done = false := hts t (List.mem_cons_self t ts)
      simp only [List.cons_append, qLearningLoop]
      rw [if_neg (by simp [htd])]
      exact ih _ t.s2 rest2 tl (fun u hu => hts u (List.mem_cons_of_mem _ hu))
        htl

theorem qLearningFold_keys_mono {St Act : Type} [DecidableEq St]
    [DecidableEq Act] (A : List Act) (γ α : ℚ) (s0 : St)
    (eps : List (List (Tr St Act))) :
    ∀ (acc : QTab St Act × List ℚ) (x : St), x ∈ acc.1.keys →
    x ∈ (eps.foldl (fun acc tr =>
        let r := qLearningLoop A γ α acc.1 s0 tr
        (r.1, acc.2 ++ [r.2.2])) acc).1.keys := by
  induction eps with
  | nil => intro acc x h; exact h
  | cons tr rest ih =>
      intro acc x h
      simp only [List.foldl_cons]
      exact ih _ x (qLearningLoop_keys_mono A γ α tr acc.1 s0 x h)

theorem qLearningFold_goal_in_keys {St Act : Type} [DecidableEq St]
    [DecidableEq Act] (A : List Act) (γ α : ℚ) (s0 : St)
    (ts rest2 : List (Tr St Act)) (tl : Tr St Act)
    (hts : ∀ t ∈ ts, t.done = false) (htl : tl.done = true)
    (eps : List (List (Tr St Act))) (hmem : (ts ++ tl :: rest2) ∈ eps) :
    ∀ (acc : QTab St Act × List ℚ),
    tl.s2 ∈ (eps.foldl (fun acc tr =>
        let r := qLearningLoop A γ α acc.1 s0 tr
        (r.1, acc.2 ++ [r.2.2])) acc).1.keys := by
  induction eps with
  | nil => cases hmem
  | cons tr rest ih =>
      intro acc
      simp only [List.foldl_cons]
      rcases List.mem_cons.mp hmem with heq | hm
      · apply qLearningFold_keys_mono
        rw [← heq]
        exact qLearningLoop_goal_in_keys A γ α ts acc.1 s0 rest2 tl hts htl
      · exact ih hm _

theorem nstepStep_keys_g {St Act : Type} [DecidableEq St] [DecidableEq Act]
    (n : ℕ) (γ α : ℚ) (g : St) (q : QTab St Act) (s : St) (a : Act)
    (t : Tr St Act) (buf : List (St × Act × ℚ)) (hq : g ∉ q.keys)
    (hs : s ≠ g) (hbuf : ∀ e ∈ buf, e.1 ≠ g)
    (ht2 : t.done = false → t.s2 ≠ g) :
    g ∉ (nstepStep n γ α q s a t buf).q.keys := by
  have hbuf1 : ∀ e ∈ buf ++ [(s, a, t.r)], e.1 ≠ g := by
    intro e he
    rcases List.mem_append.mp he with h | h
    · exact hbuf e h
    · simp only [List.mem_singleton] at h
      rw [h]; exact hs
  have hgs2 : t.done = false → g ≠ t.s2 :=
    fun hd he => (ht2 hd) he.symm
  have hq1 : g ∉ (if t.done = true then q
      else if t.exp = true then q else qtouch q t.s2).keys := by
    split
    · exact hq
    · next hd =>
        split
        · exact hq
        · exact qtouch_keys_not q t.s2 g hq (hgs2 (Bool.not_eq_true _ ▸ hd))
  simp only [nstepStep]
  split
  · split
    · exact hq1
    · next e btail heq =>
        have he : g ≠ e.1 :=
          fun h => (hbuf1 e (heq ▸ List.mem_cons_self e btail)) h.symm
        have hq2 : g ∉ (if t.done = true then
            (if t.done = true then q else if t.exp = true then q
              else qtouch q t.s2)
          else qtouch (if t.done = true then q else if t.exp = true then q
              else qtouch q t.s2) t.s2).keys := by
          split
          · exact hq
          · next hd =>
              rw [if_neg hd] at hq1
              exact qtouch_keys_not _ t.s2 g hq1
                (hgs2 (Bool.not_eq_true _ ▸ hd))
        exact qtouch_keys_not _ e.1 g (qtouch_keys_not _ e.1 g hq2 he) he
  · exact hq1

theorem nstepLoop_keys_g {St Act : Type} [DecidableEq St] [DecidableEq Act]
    (n : ℕ) (γ α : ℚ) (cap : ℕ) (g : St) (traj : List (Tr St Act)) :
    ∀ (q : QTab St Act) (s : St) (a : Act) (cnt : ℕ)
      (buf : List (St × Act × ℚ)), g ∉ q.keys → s ≠ g →
    (∀ t ∈ traj, t.done = false → t.s2 ≠ g) → (∀ e ∈ buf, e.1 ≠ g) →
    g ∉ (nstepLoop n γ α cap q s a cnt buf traj).q.keys ∧
      (∀ e ∈ (nstepLoop n γ α cap q s a cnt buf traj).buf, e.1 ≠ g) := by
  induction traj with
  | nil => intro q s a cnt buf hq _ _ hbuf; exact ⟨hq, hbuf⟩
  | cons t rest ih =>
      intro q s a cnt buf hq hs htraj hbuf
      have ht2 : t.done = false → t.s2 ≠ g :=
        htraj t (List.mem_cons_self t rest)
      have hqs := nstepStep_keys_g n γ α g q s a t buf hq hs hbuf ht2
      have hbs := (nstepStep_val_g n γ α g q s a t buf hbuf hs).2
      simp only [nstepLoop]
      by_cases hc : cnt < cap
      · simp only [hc, if_true]
        split
        · exact ⟨hqs, hbs⟩
        · next hd =>
            exact ih (nstepStep n γ α q s a t buf).q t.s2 t.act (cnt + 1)
              (nstepStep n γ α q s a t buf).buf hqs
              (ht2 (Bool.not_eq_true _ ▸ hd))
              (fun u hu => htraj u (List.mem_cons_of_mem _ hu)) hbs
      · rw [if_neg hc]
        exact ⟨hq, hbuf⟩

theorem drain_keys_g {St Act : Type} [DecidableEq St] [DecidableEq Act]
    (γ α : ℚ) (g : St) (buf : List (St × Act × ℚ)) :
    ∀ (q : QTab St Act), g ∉ q.keys → (∀ e ∈ buf, e.1 ≠ g) →
    g ∉ (drain γ α q buf).1.keys := by
  induction buf with
  | nil => intro q hq _; exact hq
  | cons e rest ih =>
      intro q hq hbuf
      have he : g ≠ e.1 :=
        fun h => (hbuf e (List.mem_cons_self e rest)) h.symm
      simp only [drain]
      exact ih _ (qtouch_keys_not _ e.1 g (qtouch_keys_not _ e.1 g hq he) he)
        (fun x hx => hbuf x (List.mem_cons_of_mem _ hx))

theorem nstepEpisode_keys_g {St Act : Type} [DecidableEq St] [DecidableEq Act]
    (n : ℕ) (γ α : ℚ) (cap : ℕ) (g : St) (q : QTab St Act) (s0 : St)
    (ep : EpIn St Act) (hq : g ∉ q.keys) (hs : s0 ≠ g)
    (htraj : ∀ t ∈ ep.traj, t.done = false → t.s2 ≠ g) :
    g ∉ (nstepEpisode n γ α cap q s0 ep).q.keys := by
  simp only [nstepEpisode]
  have hqi : g ∉ (if ep.e0 = true then q else qtouch q s0).keys := by
    split
    · exact hq
    · exact qtouch_keys_not q s0 g hq (fun h => hs h.symm)
  obtain ⟨h1, h2⟩ := nstepLoop_keys_g n γ α cap g ep.traj
    (if ep.e0 = true then q else qtouch q s0) s0 ep.a0 0 [] hqi hs htraj
    (by simp)
  exact drain_keys_g γ α g _ _ h1 h2

theorem nstepFold_keys_g {St Act : Type} [DecidableEq St] [DecidableEq Act]
    (n : ℕ) (γ α : ℚ) (cap : ℕ) (g s0 : St) (hs : s0 ≠ g)
    (eps : List (EpIn St Act)) :
    ∀ (acc : QTab St Act × List ℚ), g ∉ acc.1.keys →
    (∀ ep ∈ eps, ∀ t ∈ ep.traj, t.done = false → t.s2 ≠ g) →
    g ∉ (eps.foldl (fun acc ep =>
        let r := nstepEpisode n γ α cap acc.1 s0 ep
        (r.q, acc.2 ++ [r.rew])) acc).1.keys := by
  induction eps with
  | nil => intro acc hq _; exact hq
  | cons ep rest ih =>
      intro acc hq heps
      simp only [List.foldl_cons]
      exact ih _ (nstepEpisode_keys_g n γ α cap g acc.1 s0 ep hq hs
          (heps ep (List.mem_cons_self ep rest)))
        (fun u hu => heps u (List.mem_cons_of_mem _ hu))

/-- C10 (amended).  The policy returned by every TD learner has as its
domain exactly the states whose Q-table rows were materialized during
training (`derivePolicy` enumerates the materialized keys), so it omits
states never visited or bootstrapped from.  `q_learning` materializes the
goal row whenever the goal is reached (its unconditional
`max(q_table[next_state].values())` read), and maps the goal to the first
action in the fixed ordering, the argmax of its all-zero row.
`n_step_sarsa`, however, never materializes the goal row — when `done` it
skips both the next-action selection and the bootstrap read — so its policy
omits the goal state even when the goal was reached. -/
theorem C10_policy_domain_materialized {St Act : Type}
    [DecidableEq St] [DecidableEq Act] (γ α : ℚ) (n cap : ℕ) (g s0 : St)
    (a0 : Act) (arest : List Act) :
    (∀ q : QTab St Act, (derivePolicy (a0 :: arest) q).map Prod.fst = q.keys) ∧
    (∀ (eps : List (List (Tr St Act))) (ts rest2 : List (Tr St Act))
        (tl : Tr St Act),
      s0 ≠ g → (∀ tr ∈ eps, ∀ t ∈ tr, t.done = false → t.s2 ≠ g) →
      (ts ++ tl :: rest2) ∈ eps → (∀ t ∈ ts, t.done = false) →
      tl.done = true → tl.s2 = g →
      g ∈ (q_learning (a0 :: arest) γ α s0 eps).q.keys ∧
        alookup g (q_learning (a0 :: arest) γ α s0 eps).policy = some a0) ∧
    (∀ eps : List (EpIn St Act),
      s0 ≠ g → (∀ ep ∈ eps, ∀ t ∈ ep.traj, t.done = false → t.s2 ≠ g) →
      g ∉ (n_step_sarsa (a0 :: arest) n γ α cap s0 eps).q.keys ∧
        alookup g (n_step_sarsa (a0 :: arest) n γ α cap s0 eps).policy
          = none) := by
  refine ⟨fun q => derivePolicy_fst a0 arest q, ?_, ?_⟩
  · intro eps ts rest2 tl hs heps hmem hts htl hgoal
    simp only [q_learning]
    have hkeys : g ∈ (eps.foldl (fun acc tr =>
        let r := qLearningLoop (a0 :: arest) γ α acc.1 s0 tr
        (r.1, acc.2 ++ [r.2.2])) ((initQ : QTab St Act), [])).1.keys := by
      rw [← hgoal]
      exact qLearningFold_goal_in_keys (a0 :: arest) γ α s0 ts rest2 tl hts
        htl eps hmem _
    have hrow : ∀ b, (eps.foldl (fun acc tr =>
        let r := qLearningLoop (a0 :: arest) γ α acc.1 s0 tr
        (r.1, acc.2 ++ [r.2.2])) ((initQ : QTab St Act), [])).1.val g b
          = 0 := by
      intro b
      rw [qLearningFold_val_g (a0 :: arest) γ α g s0 hs b eps _ heps]
      rfl
    refine ⟨hkeys, ?_⟩
    simp only [derivePolicy]
    rw [alookup_map_self _ g _ hkeys]
    have hconst : ∀ x ∈ arest.map (fun b => (b, (eps.foldl (fun acc tr =>
        let r := qLearningLoop (a0 :: arest) γ α acc.1 s0 tr
        (r.1, acc.2 ++ [r.2.2])) ((initQ : QTab St Act), [])).1.val g b)),
        x.2 = (a0, (eps.foldl (fun acc tr =>
          let r := qLearningLoop (a0 :: arest) γ α acc.1 s0 tr
          (r.1, acc.2 ++ [r.2.2])) ((initQ : QTab St Act), [])).1.val g a0).2
        := by
      intro x hx
      obtain ⟨b, -, rfl⟩ := List.mem_map.mp hx
      simp [hrow]
    rw [pyArgmax_const _ _ hconst]
  · intro eps hs heps
    simp only [n_step_sarsa]
    have hkeys : g ∉ (eps.foldl (fun acc ep =>
        let r := nstepEpisode n γ α cap acc.1 s0 ep
        (r.q, acc.2 ++ [r.rew])) ((initQ : QTab St Act), [])).1.keys :=
      nstepFold_keys_g n γ α cap g s0 hs eps _ (by simp [initQ]) heps
    refine ⟨hkeys, ?_⟩
    simp only [derivePolicy]
    exact alookup_map_not_mem _ g _ hkeys

/-- C10 counterexample: on a run whose single episode reaches the goal
(state 1) in one terminal step, `n_step_sarsa`'s returned policy has no
entry for the goal — the goal row was never materialized — while
`q_learning` on the same trajectory includes the goal, mapped to the first
action. -/
theorem C10_counterexample :
    cx2.done = true ∧ cx2.s2 = 1 ∧
      alookup 1 (n_step_sarsa [0] 1 1 1 10 0 [⟨true, 0, [cx2]⟩]).policy
        = none ∧
      alookup 1 (q_learning [0] 1 1 0 [[cx2]]).policy = some 0 := by
  refine ⟨rfl, rfl, ?_, ?_⟩
  · simp [n_step_sarsa, nstepEpisode, nstepLoop, nstepStep, drain,
      derivePolicy, alookup, pyArgmax, qtouch, qwrite, initQ, cx2]
  · simp [q_learning, qLearningLoop, derivePolicy, alookup, pyArgmax,
      qtouch, qwrite, initQ, cx2]

theorem C10_witness :
    (0 : ℕ) ≠ 1 ∧ (∀ tr ∈ [[cx2]], ∀ t ∈ tr, t.done = false → t.s2 ≠ 1) ∧
      ([] ++ cx2 :: []) ∈ [[cx2]] ∧ cx2.done = true ∧ cx2.s2 = 1 ∧
      (1 ∈ (q_learning [0] 1 1 0 [[cx2]]).q.keys ∧
        alookup 1 (q_learning [0] 1 1 0 [[cx2]]).policy = some 0) := by
  have h := (C10_policy_domain_materialized 1 1 1 10 (1 : ℕ) (0 : ℕ)
      (0 : ℕ) []).2.1 [[cx2]] [] [] cx2 (by decide) (by decide)
      (by simp) (by simp) rfl rfl
  exact ⟨by decide, by decide, by simp, rfl, rfl, h⟩

/-! ## CliffWalkEnv (Homework2/source/cliffwalk.py)

`CliffWalkEnv` overrides `step` of `MazeEnvironment`
(Homework1/source/maze.py, not part of the corpus); the parent pieces are
modelled from the specification and marked as such. -/

/-- Modelled from the spec: the parent `MazeEnvironment`'s action
dictionary `self.actions` (Homework1/source/maze.py is missing from the
corpus).  Per §3 and §4.1 the action set is a small fixed set of compass
labels; the `CliffWalkEnv.step` docstring names them 'N', 'S', 'W', 'E'. -/
def cwActions : List (String × (ℤ × ℤ)) :=
  [("N", (-1, 0)), ("S", (1, 0)), ("W", (0, -1)), ("E", (0, 1))]

/-- The cliff-walk environment data: grid of cell codes (0 path, 1 wall,
2 start, 3 goal, 4 cliff), dimensions, start and goal cells, and the three
reward parameters of `CliffWalkEnv.__init__`. -/
structure CliffWalkEnv where
  maze : List (List ℕ)
  height : ℤ
  width : ℤ
  startPos : ℤ × ℤ
  goalPos : ℤ × ℤ
  rewardStep : ℚ
  rewardCliff : ℚ
  rewardGoal : ℚ

/-- Cell lookup `self.maze[pos]`; only ever consulted after the bounds
check, so the out-of-range default is irrelevant. -/
def mazeAt (e : CliffWalkEnv) (p : ℤ × ℤ) : ℕ :=
  (e.maze.getD p.1.toNat []).getD p.2.toNat 1

/-- Modelled from the spec: `MazeEnvironment.step` of the missing parent
class (Homework1/source/maze.py).  Per §4.1 and §9: an unrecognized action
fails with the `InvalidAction` condition; a move into a wall or out of
bounds leaves the agent in place (blocked); reaching the goal cell yields
`reward_goal` and `terminal = true`; any other move yields `reward_step`,
non-terminal.  Raising is modelled as `Except.error`. -/
def mazeStep (e : CliffWalkEnv) (pos : ℤ × ℤ) (action : String) :
    Except String ((ℤ × ℤ) × ℚ × Bool) :=
  match alookup action cwActions with
  | none => .error "InvalidAction"
  | some mv =>
      let np := (pos.1 + mv.1, pos.2 + mv.2)
      let np2 := if 0 ≤ np.1 ∧ np.1 < e.height ∧ 0 ≤ np.2 ∧ np.2 < e.width
          ∧ mazeAt e np ≠ 1 then np else pos
      if np2 = e.goalPos then .ok (np2, e.rewardGoal, true)
      else .ok (np2, e.rewardStep, false)

/-- `CliffWalkEnv.step` (cliffwalk.py lines 45-73): if the agent is already
at the goal, return the absorbing triple `(goal, 0, True)` WITHOUT
validating the action; otherwise look the action up (raising
`ValueError`/`InvalidAction` when unrecognized), and if the theoretical
next cell is in bounds and a cliff tile, reset to the start with the cliff
penalty, non-terminal; otherwise defer to the parent's step. -/
def cliffStep (e : CliffWalkEnv) (pos : ℤ × ℤ) (action : String) :
    Except String ((ℤ × ℤ) × ℚ × Bool) :=
  if pos = e.goalPos then .ok (e.goalPos, 0, true)
  else
    match alookup action cwActions with
    | none => .error "InvalidAction"
    | some mv =>
        let np := (pos.1 + mv.1, pos.2 + mv.2)
        if 0 ≤ np.1 ∧ np.1 < e.height ∧ 0 ≤ np.2 ∧ np.2 < e.width
            ∧ mazeAt e np = 4 then
          .ok (e.startPos, e.rewardCliff, false)
        else mazeStep e pos action

/-- C7 (amended).  `CliffWalkEnv.step` raises `InvalidAction` exactly on
(non-goal state, unrecognized action) pairs: at every NON-goal state it
succeeds if and only if the action is recognized, and raises when it is
not; at the goal state it returns `(goal, 0, True)` without consulting the
action at all, so an unrecognized action does NOT raise there (see the
counterexample). -/
theorem C7_invalid_action_iff (e : CliffWalkEnv) (pos : ℤ × ℤ)
    (a : String) :
    (pos ≠ e.goalPos →
      ((∃ t, cliffStep e pos a = .ok t) ↔
        ∃ mv, alookup a cwActions = some mv)) ∧
    (pos = e.goalPos → cliffStep e pos a = .ok (e.goalPos, 0, true)) ∧
    (pos ≠ e.goalPos → alookup a cwActions = none →
      cliffStep e pos a = .error "InvalidAction") := by
  refine ⟨fun hpos => ?_, fun hpos => by simp [cliffStep, hpos],
    fun hpos hlk => by simp [cliffStep, hpos, hlk]⟩
  constructor
  · rintro ⟨t, ht⟩
    cases hlk : alookup a cwActions with
    | none =>
        simp only [cliffStep, if_neg hpos, hlk] at ht
        simp at ht
    | some mv => exact ⟨mv, rfl⟩
  · rintro ⟨mv, hmv⟩
    simp only [cliffStep, if_neg hpos, hmv]
    split
    · exact ⟨_, rfl⟩
    · simp only [mazeStep, hmv]
      split
      all_goals first
        | exact ⟨_, rfl⟩
        | (split <;> exact ⟨_, rfl⟩)

/-- The 3x3 `cliffwalk1` layout of layout.py, start `(0,0)`, goal
`(2,2)`. -/
def cw1 : CliffWalkEnv :=
  ⟨[[2, 0, 4], [4, 0, 0], [0, 0, 3]], 3, 3, (0, 0), (2, 2), -1, -100, 0⟩

/-- C7 counterexample: at the goal state, `step` with the unrecognized
action "X" does NOT raise — it returns the absorbing triple, because the
goal early-return precedes action validation — refuting "for every state
and every unrecognized action it raises". -/
theorem C7_counterexample :
    alookup "X" cwActions = none ∧ cw1.goalPos = (2, 2) ∧
      cliffStep cw1 (2, 2) "X" = .ok ((2, 2), 0, true) := by
  refine ⟨rfl, rfl, ?_⟩
  simp [cliffStep, cw1]

theorem C7_witness :
    ((0 : ℤ), (0 : ℤ)) ≠ cw1.goalPos ∧
      ((∃ t, cliffStep cw1 (0, 0) "N" = .ok t) ↔
        ∃ mv, alookup "N" cwActions = some mv) :=
  ⟨by decide, (C7_invalid_action_iff cw1 (0, 0) "N").1 (by decide)⟩

end YatRL
